import Mathlib

/-!
# STRUMPACK block low-rank tiles and the 2D process grid

A shallow embedding of `src/BLR/BLRMatrixMPI.hpp` (class `ProcessorGrid2D`, the
indexing members of `BLRMatrixMPI`) and of `src/BLR/LRTile.hpp` (class `LRTile`),
followed by theorems about them.

Conventions of the embedding.
* A C++ `int` is an `Int`; the result of `int` arithmetic is reduced to the 32 bit
  two's complement range by `wrapInt`.  `%` and `/` on `int` are the truncating
  `Int.tmod` and `Int.tdiv`.
* A `std::size_t` is a `Nat`; the result of `size_t` arithmetic is reduced modulo
  `2^64` (`SIZE_T_MOD`).
* An `assert` that fails makes the function return `none`.
* Division by zero and a subscript outside a `std::vector` are undefined in the source;
  the theorems are stated for inputs where they do not occur.
* The scalar type `scalar_t` is a commutative ring with a conjugation (`Star`), which
  covers the real and the complex instantiations with exact arithmetic.
-/

namespace strumpack
namespace BLR

/-! ## Machine integers -/

/-- Largest value of the C++ type `int`. -/
def INT_MAX : Int := 2147483647

/-- Number of values of the C++ type `std::size_t`. -/
def SIZE_T_MOD : Nat := 2 ^ 64

/-- Value of an `int` expression whose mathematical value is `x`: reduction to the
32 bit two's complement range. -/
def wrapInt (x : Int) : Int := (x + 2147483648) % 4294967296 - 2147483648

/-- Conversion `int` to `std::size_t` (as in `i % grid_->nprows()` with `i` a
`std::size_t`): reduction modulo `2^64`. -/
def toSizeT (x : Int) : Nat := (x % (SIZE_T_MOD : Int)).toNat

/-- Conversion `int(...)` of a `std::size_t` value. -/
def toInt (n : Nat) : Int := wrapInt (n : Int)

/-! ## `ProcessorGrid2D` -/

/-- The data members of `ProcessorGrid2D` (the communicators are left out). -/
structure ProcessorGrid2D where
  active_ : Bool
  prow_ : Int
  pcol_ : Int
  nprows_ : Int
  npcols_ : Int
  deriving DecidableEq

namespace ProcessorGrid2D

def nprows (g : ProcessorGrid2D) : Int := g.nprows_
def npcols (g : ProcessorGrid2D) : Int := g.npcols_
def prow (g : ProcessorGrid2D) : Int := g.prow_
def pcol (g : ProcessorGrid2D) : Int := g.pcol_
def active (g : ProcessorGrid2D) : Bool := g.active_

/-- Source: `int npactives() const { return nprows()*npcols(); }` -/
def npactives (g : ProcessorGrid2D) : Int := wrapInt (g.nprows * g.npcols)

/-- Source: `bool is_local_row(int i) const { return i % nprows_ == prow_; }` -/
def is_local_row (g : ProcessorGrid2D) (i : Int) : Bool :=
  decide (Int.tmod i g.nprows_ = g.prow_)

/-- Source: `bool is_local_col(int i) const { return i % npcols_ == pcol_; }` -/
def is_local_col (g : ProcessorGrid2D) (i : Int) : Bool :=
  decide (Int.tmod i g.npcols_ = g.pcol_)

/-- Source: `bool is_local(int i, int j) const { return is_local_row(i) & is_local_col(j); }` -/
def is_local (g : ProcessorGrid2D) (i j : Int) : Bool :=
  g.is_local_row i && g.is_local_col j

/-- Source: `int rg2p(int i) const { return i % nprows(); }` -/
def rg2p (g : ProcessorGrid2D) (i : Int) : Int := Int.tmod i g.nprows

/-- Source: `int cg2p(int j) const { return j % npcols(); }` -/
def cg2p (g : ProcessorGrid2D) (j : Int) : Int := Int.tmod j g.npcols

/-- Source: `int g2p(int i, int j) const { return rg2p(i) + cg2p(j) * nprows(); }` -/
def g2p (g : ProcessorGrid2D) (i j : Int) : Int :=
  wrapInt (g.rg2p i + wrapInt (g.cg2p j * g.nprows))

end ProcessorGrid2D

/-- Modelled from the spec: the constructors of `ProcessorGrid2D` are only declared in
the header.  The grid seen by rank `rank` of a `Pr x Pc` grid: ranks `[0, Pr*Pc)` are
active, `prow = rank mod Pr`, `pcol = rank div Pr`. -/
def gridOfRank (Pr Pc rank : Int) : ProcessorGrid2D :=
  ⟨decide (rank < Pr * Pc), Int.tmod rank Pr, Int.tdiv rank Pr, Pr, Pc⟩

/-! ## `BLRMatrixMPI`: partition and local tile store -/

/-- The data members of `BLRMatrixMPI<scalar_t>`.  A `std::vector` is a list, the tile
store `blocks_` holds values of an arbitrary tile type `τ` (the pointees of the
`std::unique_ptr`s), and `grid_` is the grid the pointer refers to. -/
structure BLRMatrixMPI (τ : Type) where
  rows_ : Nat
  cols_ : Nat
  lrows_ : Nat
  lcols_ : Nat
  brows_ : Nat
  bcols_ : Nat
  lbrows_ : Nat
  lbcols_ : Nat
  roff_ : List Nat
  coff_ : List Nat
  rl2t_ : List Nat
  cl2t_ : List Nat
  rl2l_ : List Nat
  cl2l_ : List Nat
  rl2g_ : List Nat
  cl2g_ : List Nat
  blocks_ : List τ
  grid_ : ProcessorGrid2D

namespace BLRMatrixMPI

variable {τ : Type}

def rows (m : BLRMatrixMPI τ) : Nat := m.rows_
def cols (m : BLRMatrixMPI τ) : Nat := m.cols_
def rowblocks (m : BLRMatrixMPI τ) : Nat := m.brows_
def colblocks (m : BLRMatrixMPI τ) : Nat := m.bcols_
def rowblockslocal (m : BLRMatrixMPI τ) : Nat := m.lbrows_
def colblockslocal (m : BLRMatrixMPI τ) : Nat := m.lbcols_

/-- Source: `std::size_t tileroff(std::size_t i) const { return roff_[i]; }`
(an index outside the vector reads 0 in the model). -/
def tileroff (m : BLRMatrixMPI τ) (i : Nat) : Nat := m.roff_.getD i 0

/-- Source: `std::size_t tilecoff(std::size_t j) const { return coff_[j]; }` -/
def tilecoff (m : BLRMatrixMPI τ) (j : Nat) : Nat := m.coff_.getD j 0

/-- Source: `std::size_t tilerows(std::size_t i) const { return roff_[i+1] - roff_[i]; }`
with the `size_t` addition and subtraction taken modulo `2^64`. -/
def tilerows (m : BLRMatrixMPI τ) (i : Nat) : Nat :=
  (m.roff_.getD ((i + 1) % SIZE_T_MOD) 0 + SIZE_T_MOD - m.roff_.getD i 0) % SIZE_T_MOD

/-- Source: `std::size_t tilecols(std::size_t j) const { return coff_[j+1] - coff_[j]; }` -/
def tilecols (m : BLRMatrixMPI τ) (j : Nat) : Nat :=
  (m.coff_.getD ((j + 1) % SIZE_T_MOD) 0 + SIZE_T_MOD - m.coff_.getD j 0) % SIZE_T_MOD

/-- Source: `tilerg2l`: `assert(int(i % grid_->nprows()) == grid_->prow());
return i / grid_->nprows();` where `nprows()` is converted to `std::size_t`. -/
def tilerg2l (m : BLRMatrixMPI τ) (i : Nat) : Option Nat :=
  if toInt (i % toSizeT m.grid_.nprows) = m.grid_.prow then
    some (i / toSizeT m.grid_.nprows)
  else none

/-- Source: `tilecg2l`: `assert(int(j % grid_->npcols()) == grid_->pcol());
return j / grid_->npcols();` -/
def tilecg2l (m : BLRMatrixMPI τ) (j : Nat) : Option Nat :=
  if toInt (j % toSizeT m.grid_.npcols) = m.grid_.pcol then
    some (j / toSizeT m.grid_.npcols)
  else none

/-- The subscript `i+j*rowblockslocal()` of `blocks_`, a `std::size_t` expression. -/
def lindex (m : BLRMatrixMPI τ) (i j : Nat) : Nat :=
  (i + (j * m.rowblockslocal) % SIZE_T_MOD) % SIZE_T_MOD

/-- Source: `ltile`: `assert(i < rowblockslocal() && j < colblockslocal());
return *blocks_[i+j*rowblockslocal()].get();` -/
def ltile (m : BLRMatrixMPI τ) (i j : Nat) : Option τ :=
  if i < m.rowblockslocal ∧ j < m.colblockslocal then m.blocks_[m.lindex i j]? else none

/-- Source: `tile`: `return ltile(tilerg2l(i), tilecg2l(j));` -/
def tile (m : BLRMatrixMPI τ) (i j : Nat) : Option τ :=
  (m.tilerg2l i).bind fun il => (m.tilecg2l j).bind fun jl => m.ltile il jl

/-- Source: `lblock`: `assert(i < rowblockslocal() && j < colblockslocal());
return blocks_[i+j*rowblockslocal()];` -/
def lblock (m : BLRMatrixMPI τ) (i j : Nat) : Option τ :=
  if i < m.rowblockslocal ∧ j < m.colblockslocal then m.blocks_[m.lindex i j]? else none

/-- Source: `block`: `assert(i < rowblocks() && j < colblocks());
return blocks_[tilerg2l(i)+tilecg2l(j)*rowblockslocal()];` -/
def block (m : BLRMatrixMPI τ) (i j : Nat) : Option τ :=
  if i < m.rowblocks ∧ j < m.colblocks then
    (m.tilerg2l i).bind fun il => (m.tilecg2l j).bind fun jl => m.blocks_[m.lindex il jl]?
  else none

end BLRMatrixMPI

/-- A matrix with 3 x 5 tiles of an 8 x 13 matrix on the 2 x 3 grid, seen from the rank at
grid position (1,1): it owns tile row 1 and tile columns 1 and 4, stored here as the
numbers 10 and 11. -/
def exampleMatrix : BLRMatrixMPI Nat :=
  ⟨8, 13, 3, 5, 3, 5, 1, 2, [0, 2, 5, 8], [0, 3, 5, 8, 10, 13], [], [], [], [], [], [],
    [10, 11], ⟨true, 1, 1, 2, 3⟩⟩

/-! ## Dense matrices and BLAS/LAPACK kernels -/

/-- Modelled from the spec: the class `DenseMatrix<scalar_t>` (`dense/DenseMatrix.hpp`
is not among the sources).  An `m x n` scalar block stored column-major in a buffer with
leading dimension `ld`; the buffer is the function `data_` from offsets to scalars. -/
structure DenseMatrix (α : Type) where
  rows_ : Nat
  cols_ : Nat
  ld_ : Nat
  data_ : Nat → α

/-- Modelled from the spec: the transposition flag of the BLAS wrappers (identity,
transpose, conjugate transpose). -/
inductive Trans where
  | N
  | T
  | C
  deriving DecidableEq

/-- Sum of `f 0, ..., f (n-1)`, the accumulation loop of the BLAS kernels. -/
def sumUpTo {α : Type} [AddMonoid α] : Nat → (Nat → α) → α
  | 0, _ => 0
  | n + 1, f => sumUpTo n f + f n

namespace blas

/-- Modelled from the spec: `blas::dotu(n, x, incx, y, incy)`, the unconjugated dot
product of two strided vectors; `x` and `y` are the buffers seen from the two pointers. -/
def dotu {α : Type} [CommRing α] (n : Nat) (x : Nat → α) (incx : Nat) (y : Nat → α)
    (incy : Nat) : α :=
  sumUpTo n fun k => x (k * incx) * y (k * incy)

end blas

namespace DenseMatrix

variable {α : Type}

def rows (A : DenseMatrix α) : Nat := A.rows_
def cols (A : DenseMatrix α) : Nat := A.cols_
def ld (A : DenseMatrix α) : Nat := A.ld_

/-- Modelled from the spec: the default constructed (empty, `0 x 0`) matrix, the value
of a data member `DenseM_t U_` that no constructor body assigns. -/
def empty [Zero α] : DenseMatrix α := ⟨0, 0, 1, fun _ => 0⟩

/-- Modelled from the spec: `ptr(i, j)`, the offset of entry `(i,j)` in the column-major
buffer. -/
def ptr (A : DenseMatrix α) (i j : Nat) : Nat := i + j * A.ld

/-- Modelled from the spec: element access `A(i,j)`. -/
def get (A : DenseMatrix α) (i j : Nat) : α := A.data_ (A.ptr i j)

/-- The buffer of `A` seen from the pointer `ptr(i,j)`. -/
def from_ptr (A : DenseMatrix α) (i j : Nat) : Nat → α := fun k => A.data_ (A.ptr i j + k)

/-- Modelled from the spec: "Memory and nonzero counts are reported as `m·n`"
(a `std::size_t` product). -/
def memory (A : DenseMatrix α) : Nat := (A.rows * A.cols) % SIZE_T_MOD

/-- Modelled from the spec: "Memory and nonzero counts are reported as `m·n`". -/
def nonzeros (A : DenseMatrix α) : Nat := (A.rows * A.cols) % SIZE_T_MOD

/-- The matrix `A` after its `rows x cols` entries are overwritten by `f i j`; the rest
of the buffer keeps its contents. -/
def overwrite (A : DenseMatrix α) (f : Nat → Nat → α) : DenseMatrix α :=
  ⟨A.rows_, A.cols_, A.ld_, fun p =>
    if p % A.ld_ < A.rows_ ∧ p / A.ld_ < A.cols_ then f (p % A.ld_) (p / A.ld_)
    else A.data_ p⟩

/-- Entry `(i,k)` of `op(A)` for the flag `ta`. -/
def opGet [Star α] (ta : Trans) (A : DenseMatrix α) (i k : Nat) : α :=
  match ta with
  | Trans.N => A.get i k
  | Trans.T => A.get k i
  | Trans.C => star (A.get k i)

/-- Modelled from the spec: the interchange of rows `i` and `t` of `A`, the step of the
row permutation `laswp`. -/
def rowSwap (A : DenseMatrix α) (i t : Nat) : DenseMatrix α :=
  A.overwrite fun a j => if a = i then A.get t j else if a = t then A.get i j else A.get a j

/-- The interchanges `(i, piv[i]-1)`, `i = 0, ..., m-1`, that a pivot vector (rows numbered
from 1, as LAPACK's `getrf` returns them) prescribes for `m` rows. -/
def pivSwaps (m : Nat) (piv : List Int) : List (Nat × Nat) :=
  (List.range m).map fun i => (i, (piv.getD i 0 - 1).toNat)

/-- Modelled from the spec: `DenseMatrix::laswp(piv, fwd)`, the row permutation of
LAPACK's `laswp` over all rows: forward it interchanges row `i` with row `piv[i]` for
`i` increasing, backward for `i` decreasing. -/
def laswp (A : DenseMatrix α) (piv : List Int) (fwd : Bool) : DenseMatrix α :=
  (if fwd then pivSwaps A.rows piv else (pivSwaps A.rows piv).reverse).foldl
    (fun B s => B.rowSwap s.1 s.2) A

/-- A pivot vector valid for `m` rows: `m` entries, each a row number in `1..m`. -/
def validPiv (m : Nat) (piv : List Int) : Prop :=
  piv.length = m ∧ ∀ i, i < m → 1 ≤ piv.getD i 0 ∧ piv.getD i 0 ≤ (m : Int)

instance (m : Nat) (piv : List Int) : Decidable (validPiv m piv) := by
  unfold validPiv
  infer_instance

/-- The buffer is large enough to keep the columns apart: `ld >= rows`. -/
def wellFormed (A : DenseMatrix α) : Prop := A.rows ≤ A.ld

instance (A : DenseMatrix α) : Decidable A.wellFormed := by
  unfold wellFormed
  infer_instance

/-- The `m x n` entries of `A` as a matrix. -/
def toMatrix (A : DenseMatrix α) (m n : Nat) : Matrix (Fin m) (Fin n) α :=
  fun i j => A.get i j

end DenseMatrix

/-- Modelled from the spec: the wrapper `gemm(ta, tb, alpha, a, b, beta, c, depth)` of
the BLAS routine: `c <- alpha * op(a) * op(b) + beta * c` on the `c.rows() x c.cols()`
entries of `c`, the inner dimension being that of `op(a)`. -/
def gemm {α : Type} [CommRing α] [Star α] (ta tb : Trans) (alpha : α) (a b : DenseMatrix α)
    (beta : α) (c : DenseMatrix α) (_depth : Int) : DenseMatrix α :=
  c.overwrite fun i j =>
    alpha * (sumUpTo (match ta with | Trans.N => a.cols | _ => a.rows) fun l =>
      DenseMatrix.opGet ta a i l * DenseMatrix.opGet tb b l j) + beta * c.get i j

/-! ## `LRTile` -/

/-- The data members of `LRTile<scalar_t>`: the factors `U_` and `V_`. -/
structure LRTile (α : Type) where
  U_ : DenseMatrix α
  V_ : DenseMatrix α

/-- Modelled from the spec: the enumeration `LowRankAlgorithm` (`BLROptions.hpp` is not
among the sources).  The spec gives `low_rank_algorithm ∈ {RRQR, ACA}`; these are the two
enumerators the constructor of `LRTile` names. -/
inductive LowRankAlgorithm where
  | RRQR
  | ACA
  deriving DecidableEq

/-- Modelled from the spec: the options record read by the constructor of `LRTile`
(`BLROptions.hpp` is not among the sources): `low_rank_algorithm`, the tolerances
`rel_tol` and `abs_tol` (of the real type `ρ`) and `max_rank`. -/
structure BLROptions (ρ : Type) where
  low_rank_algorithm : LowRankAlgorithm
  rel_tol : ρ
  abs_tol : ρ
  max_rank : Int

/-- The compression kernels called by the constructor of `LRTile`, taken as parameters
(`DenseMatrix::low_rank` and `adaptive_cross_approximation` are not among the sources):
each returns the factors it writes to `U_` and `V_`. -/
structure CompressionKernels (α ρ : Type) where
  low_rank : DenseMatrix α → ρ → ρ → Int → Int → DenseMatrix α × DenseMatrix α
  adaptive_cross_approximation :
    Nat → Nat → (Nat → Nat → Option α) → ρ → ρ → Int → DenseMatrix α × DenseMatrix α

namespace LRTile

variable {α : Type}

/-- Source: `LRTile(const DenseM_t& T, const Opts_t& opts)`:
`if (opts.low_rank_algorithm() == LowRankAlgorithm::RRQR) { T.low_rank(U_, V_, ...); }
else if (opts.low_rank_algorithm() == LowRankAlgorithm::ACA) {
adaptive_cross_approximation(U_, V_, T.rows(), T.cols(), ...); }`, the element oracle of
`ACA` being `T(i, j)` under the assertions `i < T.rows()` and `j < T.cols()`.  Where no
branch runs, `U_` and `V_` stay default constructed.  `cutoff` is
`params::task_recursion_cutoff_level`. -/
def ofDense [Zero α] {ρ : Type} (kernels : CompressionKernels α ρ) (cutoff : Int)
    (T : DenseMatrix α) (opts : BLROptions ρ) : LRTile α :=
  if opts.low_rank_algorithm = LowRankAlgorithm.RRQR then
    let UV := kernels.low_rank T opts.rel_tol opts.abs_tol opts.max_rank cutoff
    ⟨UV.1, UV.2⟩
  else if opts.low_rank_algorithm = LowRankAlgorithm.ACA then
    let UV := kernels.adaptive_cross_approximation T.rows T.cols
      (fun i j => if i < T.rows ∧ j < T.cols then some (T.get i j) else none)
      opts.rel_tol opts.abs_tol opts.max_rank
    ⟨UV.1, UV.2⟩
  else ⟨DenseMatrix.empty, DenseMatrix.empty⟩

/-- Source: `std::size_t rows() const override { return U_.rows(); }` -/
def rows (t : LRTile α) : Nat := t.U_.rows

/-- Source: `std::size_t cols() const override { return V_.cols(); }` -/
def cols (t : LRTile α) : Nat := t.V_.cols

/-- Source: `std::size_t rank() const override { return U_.cols(); }` -/
def rank (t : LRTile α) : Nat := t.U_.cols

/-- Source: `bool is_low_rank() const override { return true; }` -/
def is_low_rank (_t : LRTile α) : Bool := true

/-- Source: `std::size_t memory() const override { return U_.memory() + V_.memory(); }` -/
def memory (t : LRTile α) : Nat := (t.U_.memory + t.V_.memory) % SIZE_T_MOD

/-- Source: `std::size_t nonzeros() const override { return U_.nonzeros() + V_.nonzeros(); }` -/
def nonzeros (t : LRTile α) : Nat := (t.U_.nonzeros + t.V_.nonzeros) % SIZE_T_MOD

/-- Source: `std::size_t maximum_rank() const override { return U_.cols(); }` -/
def maximum_rank (t : LRTile α) : Nat := t.U_.cols

/-- Source: `dense(A)`: `gemm(Trans::N, Trans::N, scalar_t(1.), U_, V_, scalar_t(0.), A,
params::task_recursion_cutoff_level);`; the result is the new value of `A`. -/
def dense [CommRing α] [Star α] (t : LRTile α) (A : DenseMatrix α) (cutoff : Int) :
    DenseMatrix α :=
  gemm Trans.N Trans.N 1 t.U_ t.V_ 0 A cutoff

/-- Source: `DenseM_t& D() override { assert(false); return U_; }` (also the `const` overload). -/
def D (_t : LRTile α) : Option (DenseMatrix α) := none

/-- Source: `DenseM_t& U() override { return U_; }` (also the `const` overload). -/
def U (t : LRTile α) : DenseMatrix α := t.U_

/-- Source: `DenseM_t& V() override { return V_; }` (also the `const` overload). -/
def V (t : LRTile α) : DenseMatrix α := t.V_

/-- Source: `operator()(i, j)`:
`return blas::dotu(rank(), U_.ptr(i, 0), U_.ld(), V_.ptr(0, j), 1);` -/
def elem [CommRing α] (t : LRTile α) (i j : Nat) : α :=
  blas.dotu t.rank (t.U_.from_ptr i 0) t.U_.ld (t.V_.from_ptr 0 j) 1

/-- Source: `void laswp(const std::vector<int>& piv, bool fwd) override { U_.laswp(piv, fwd); }` -/
def laswp (t : LRTile α) (piv : List Int) (fwd : Bool) : LRTile α :=
  ⟨t.U_.laswp piv fwd, t.V_⟩

/-- The element `(i,j)` of a low-rank tile in the words of the specification:
`⟨U(i,:), V(:,j)⟩`, the sum over `k < r` of `U(i,k) * V(k,j)`. -/
def elemSpec [CommRing α] (t : LRTile α) (i j : Nat) : α :=
  Finset.sum (Finset.range t.rank) fun k => t.U_.get i k * t.V_.get k j

end LRTile

/-! ## Triangular solves, matrix-vector products and the remaining tile kernels -/

/-- Modelled from the spec: the `side` flag of `trsm` (`Side::L`, `Side::R`). -/
inductive Side where
  | L
  | R
  deriving DecidableEq

/-- Modelled from the spec: the `uplo` flag of `trsm` (upper or lower triangle). -/
inductive UpLo where
  | U
  | L
  deriving DecidableEq

/-- Modelled from the spec: the `diag` flag of `trsm` (unit or non-unit diagonal). -/
inductive Diag where
  | U
  | N
  deriving DecidableEq

/-- Entry `(i,k)` of `op(f)` for a matrix given by its entries `f`. -/
def opEntry {α : Type} [Star α] (ta : Trans) (f : Nat → Nat → α) (i k : Nat) : α :=
  match ta with
  | Trans.N => f i k
  | Trans.T => f k i
  | Trans.C => star (f k i)

/-- Entry `(i,j)` of the product of a matrix `f` with `K` columns and a matrix `g` with
`K` rows, both given by their entries. -/
def mulEntries {α : Type} [CommRing α] (K : Nat) (f g : Nat → Nat → α) (i j : Nat) : α :=
  Finset.sum (Finset.range K) fun l => f i l * g l j

/-- The entries of a matrix as a function of two natural numbers (0 outside). -/
def entriesOf {α : Type} [Zero α] {m n : Nat} (M : Matrix (Fin m) (Fin n) α) (i j : Nat) : α :=
  if h : i < m ∧ j < n then M ⟨i, h.1⟩ ⟨j, h.2⟩ else 0

/-- Modelled from the spec: the constructor `DenseMatrix(m, n)`: an `m x n` matrix with
leading dimension `max(1, m)` in newly allocated memory, whose contents `fresh` are
not initialised. -/
def DenseMatrix.alloc {α : Type} (m n : Nat) (fresh : Nat → α) : DenseMatrix α :=
  ⟨m, n, max 1 m, fresh⟩

/-- The triangular matrix of order `n` that `trsm` reads from `a`: the upper or lower
triangle per `ul`, with the diagonal taken as 1 for `Diag::U`. -/
def triMatrix {α : Type} [Zero α] [One α] (ul : UpLo) (d : Diag) (a : DenseMatrix α) (n : Nat) :
    Matrix (Fin n) (Fin n) α :=
  fun i j =>
    if (i : Nat) = j then (match d with | Diag.U => 1 | Diag.N => a.get i j)
    else if (ul = UpLo.U ∧ (i : Nat) < j) ∨ (ul = UpLo.L ∧ (j : Nat) < i) then a.get i j
    else 0

/-- The matrix `op(M)` for the flag `ta`. -/
def opMatrix {α : Type} [Star α] {n : Nat} (ta : Trans) (M : Matrix (Fin n) (Fin n) α) :
    Matrix (Fin n) (Fin n) α :=
  match ta with
  | Trans.N => M
  | Trans.T => M.transpose
  | Trans.C => M.conjTranspose

/-- The inverse of a square matrix over a field, by the adjugate. -/
def matInv {α : Type} [Field α] {n : Nat} (M : Matrix (Fin n) (Fin n) α) :
    Matrix (Fin n) (Fin n) α :=
  (M.det)⁻¹ • M.adjugate

/-- Modelled from the spec: the wrapper `trsm(side, uplo, trans, diag, alpha, a, b, depth)`
of the BLAS routine: `b <- alpha * op(A)^-1 * b` for `Side::L` and
`b <- alpha * b * op(A)^-1` for `Side::R`, with `A` the triangular matrix read from `a`. -/
def trsm {α : Type} [Field α] [Star α] (s : Side) (ul : UpLo) (ta : Trans) (d : Diag)
    (alpha : α) (a b : DenseMatrix α) (_depth : Int) : DenseMatrix α :=
  match s with
  | Side.L => b.overwrite (entriesOf
      (alpha • (matInv (opMatrix ta (triMatrix ul d a b.rows)) * b.toMatrix b.rows b.cols)))
  | Side.R => b.overwrite (entriesOf
      (alpha • (b.toMatrix b.rows b.cols * matInv (opMatrix ta (triMatrix ul d a b.cols)))))

namespace blas

/-- Modelled from the spec: `blas::gemv(ta, m, n, alpha, a, lda, x, incx, beta, y, incy)`
on an `m x n` matrix `a`: `y <- alpha * op(a) * x + beta * y` on the strided vectors seen
from the pointers `x` and `y`; the result is the buffer seen from `y`. -/
def gemv {α : Type} [CommRing α] [Star α] (ta : Trans) (alpha : α) (a : DenseMatrix α)
    (x : Nat → α) (incx : Nat) (beta : α) (y : Nat → α) (incy : Nat) : Nat → α :=
  fun p =>
    if p % incy = 0 ∧ p / incy < (match ta with | Trans.N => a.rows | _ => a.cols) then
      alpha * (sumUpTo (match ta with | Trans.N => a.cols | _ => a.rows) fun l =>
        DenseMatrix.opGet ta a (p / incy) l * x (l * incx)) + beta * y p
    else y p

end blas

/-- Modelled from the spec: `gemv(ta, alpha, a, x, beta, y, depth)` with `x` and `y`
matrices of one column. -/
def gemv {α : Type} [CommRing α] [Star α] (ta : Trans) (alpha : α) (a x : DenseMatrix α)
    (beta : α) (y : DenseMatrix α) (_depth : Int) : DenseMatrix α :=
  ⟨y.rows_, y.cols_, y.ld_, blas.gemv ta alpha a x.data_ 1 beta y.data_ 1⟩

/-- Modelled from the spec: `gemv(ta, alpha, a, x, incx, beta, y, depth)` with `x` a
pointer with stride `incx` and `y` a matrix of one column. -/
def gemv_xptr {α : Type} [CommRing α] [Star α] (ta : Trans) (alpha : α) (a : DenseMatrix α)
    (x : Nat → α) (incx : Nat) (beta : α) (y : DenseMatrix α) (_depth : Int) : DenseMatrix α :=
  ⟨y.rows_, y.cols_, y.ld_, blas.gemv ta alpha a x incx beta y.data_ 1⟩

/-- Modelled from the spec: `gemv(ta, alpha, a, x, beta, y, incy, depth)` with `x` a
matrix of one column and `y` a pointer with stride `incy`. -/
def gemv_yptr {α : Type} [CommRing α] [Star α] (ta : Trans) (alpha : α) (a x : DenseMatrix α)
    (beta : α) (y : Nat → α) (incy : Nat) (_depth : Int) : Nat → α :=
  blas.gemv ta alpha a x.data_ 1 beta y incy

/-- Modelled from the spec: `gemv(ta, alpha, a, x, incx, beta, y, incy, depth)` with
`x` and `y` pointers with strides. -/
def gemv_ptr {α : Type} [CommRing α] [Star α] (ta : Trans) (alpha : α) (a : DenseMatrix α)
    (x : Nat → α) (incx : Nat) (beta : α) (y : Nat → α) (incy : Nat) (_depth : Int) : Nat → α :=
  blas.gemv ta alpha a x incx beta y incy

/-- Modelled from the spec: the dense tile (`DenseTile.hpp` is not among the sources),
which holds an `m x n` dense block `D`. -/
structure DenseTile (α : Type) where
  D_ : DenseMatrix α

/-- Modelled from the spec: the accessor `D()` of a dense tile. -/
def DenseTile.D {α : Type} (t : DenseTile α) : DenseMatrix α := t.D_

/-- The virtual member functions of the abstract class `BLRTile` that `LRTile` calls on
its argument `b` (`BLRTile.hpp` is not among the sources): the overloads of `gemm_b`,
`Schur_update_col_b` and `Schur_update_row_b` that take an `LRTile`.  The arguments
`cutoff` and `fresh` are `params::task_recursion_cutoff_level` and the contents of
newly allocated memory. -/
structure BLRTile (α : Type) where
  gemm_b : Int → (Nat → α) → Trans → Trans → α → LRTile α → α → DenseMatrix α → DenseMatrix α
  Schur_update_col_b : Int → (Nat → α) → Nat → LRTile α → (Nat → α) → Nat → (Nat → α)
  Schur_update_row_b : Int → (Nat → α) → Nat → LRTile α → (Nat → α) → Nat → (Nat → α)

namespace LRTile

variable {α : Type}

/-- Source: `trsm_b`: `strumpack::trsm(s, ul, ta, d, alpha, a, (s == Side::L) ? U_ : V_,
params::task_recursion_cutoff_level);` -/
def trsm_b [Field α] [Star α] (t : LRTile α) (cutoff : Int) (s : Side) (ul : UpLo)
    (ta : Trans) (d : Diag) (alpha : α) (a : DenseMatrix α) : LRTile α :=
  if s = Side.L then ⟨trsm s ul ta d alpha a t.U_ cutoff, t.V_⟩
  else ⟨t.U_, trsm s ul ta d alpha a t.V_ cutoff⟩

/-- Source: `gemv_a`: `DenseM_t tmp(rank(), x.cols());
gemv(ta, scalar_t(1.), ta==Trans::N ? V() : U(), x, scalar_t(0.), tmp, cutoff);
gemv(ta, alpha, ta==Trans::N ? U() : V(), tmp, beta, y, cutoff);`; the result is the new
value of `y`. -/
def gemv_a [CommRing α] [Star α] (t : LRTile α) (cutoff : Int) (fresh : Nat → α)
    (ta : Trans) (alpha : α) (x : DenseMatrix α) (beta : α) (y : DenseMatrix α) :
    DenseMatrix α :=
  let tmp := DenseMatrix.alloc t.rank x.cols fresh
  let tmp1 := gemv ta 1 (if ta = Trans.N then t.V else t.U) x 0 tmp cutoff
  gemv ta alpha (if ta = Trans.N then t.U else t.V) tmp1 beta y cutoff

/-- Source: `gemm_a(ta, tb, alpha, const BLRTile& b, beta, c)`:
`b.gemm_b(ta, tb, alpha, *this, beta, c);` -/
def gemm_a (t : LRTile α) (cutoff : Int) (fresh : Nat → α) (ta tb : Trans) (alpha : α)
    (b : BLRTile α) (beta : α) (c : DenseMatrix α) : DenseMatrix α :=
  b.gemm_b cutoff fresh ta tb alpha t beta c

/-- Source: `gemm_a(ta, tb, alpha, const DenseM_t& b, beta, c, task_depth)`:
`DenseM_t tmp(rank(), c.cols());
gemm(ta, tb, scalar_t(1.), ta==Trans::N ? V() : U(), b, scalar_t(0.), tmp, task_depth);
gemm(ta, Trans::N, alpha, ta==Trans::N ? U() : V(), tmp, beta, c, task_depth);` -/
def gemm_a_DenseM [CommRing α] [Star α] (t : LRTile α) (fresh : Nat → α) (ta tb : Trans)
    (alpha : α) (b : DenseMatrix α) (beta : α) (c : DenseMatrix α) (task_depth : Int) :
    DenseMatrix α :=
  let tmp := DenseMatrix.alloc t.rank c.cols fresh
  let tmp1 := gemm ta tb 1 (if ta = Trans.N then t.V else t.U) b 0 tmp task_depth
  gemm ta Trans.N alpha (if ta = Trans.N then t.U else t.V) tmp1 beta c task_depth

/-- Source: `gemm_b(ta, tb, alpha, const LRTile& a, beta, c)`:
`DenseM_t tmp1(a.rank(), rank());
gemm(ta, tb, scalar_t(1.), ta==Trans::N ? a.V() : a.U(), tb==Trans::N ? U() : V(),
scalar_t(0.), tmp1, cutoff);
DenseM_t tmp2(c.rows(), tmp1.cols());
gemm(ta, Trans::N, scalar_t(1.), ta==Trans::N ? a.U() : a.V(), tmp1, scalar_t(0.), tmp2,
cutoff);
gemm(Trans::N, tb, alpha, tmp2, tb==Trans::N ? V() : U(), beta, c, cutoff);` -/
def gemm_b [CommRing α] [Star α] (t : LRTile α) (cutoff : Int) (fresh : Nat → α)
    (ta tb : Trans) (alpha : α) (a : LRTile α) (beta : α) (c : DenseMatrix α) :
    DenseMatrix α :=
  let tmp1 := DenseMatrix.alloc a.rank t.rank fresh
  let tmp1a := gemm ta tb 1 (if ta = Trans.N then a.V else a.U)
    (if tb = Trans.N then t.U else t.V) 0 tmp1 cutoff
  let tmp2 := DenseMatrix.alloc c.rows tmp1a.cols fresh
  let tmp2a := gemm ta Trans.N 1 (if ta = Trans.N then a.U else a.V) tmp1a 0 tmp2 cutoff
  gemm Trans.N tb alpha tmp2a (if tb = Trans.N then t.V else t.U) beta c cutoff

/-- Source: `gemm_b(ta, tb, alpha, const DenseM_t& a, beta, c, task_depth)`:
`DenseM_t tmp(c.rows(), rank());
gemm(ta, tb, scalar_t(1.), a, tb==Trans::N ? U() : V(), scalar_t(0.), tmp, task_depth);
gemm(Trans::N, tb, alpha, tmp, tb==Trans::N ? V() : U(), beta, c, task_depth);` -/
def gemm_b_DenseM [CommRing α] [Star α] (t : LRTile α) (fresh : Nat → α) (ta tb : Trans)
    (alpha : α) (a : DenseMatrix α) (beta : α) (c : DenseMatrix α) (task_depth : Int) :
    DenseMatrix α :=
  let tmp := DenseMatrix.alloc c.rows t.rank fresh
  let tmp1 := gemm ta tb 1 a (if tb = Trans.N then t.U else t.V) 0 tmp task_depth
  gemm Trans.N tb alpha tmp1 (if tb = Trans.N then t.V else t.U) beta c task_depth

/-- Source: `gemm_b(ta, tb, alpha, const DenseTile& a, beta, c)`:
`gemm_b(ta, tb, alpha, a.D(), beta, c, params::task_recursion_cutoff_level);` -/
def gemm_b_DenseTile [CommRing α] [Star α] (t : LRTile α) (cutoff : Int) (fresh : Nat → α)
    (ta tb : Trans) (alpha : α) (a : DenseTile α) (beta : α) (c : DenseMatrix α) :
    DenseMatrix α :=
  t.gemm_b_DenseM fresh ta tb alpha a.D beta c cutoff

/-- Source: `Schur_update_col_a(i, const BLRTile& b, c, incc)`:
`b.Schur_update_col_b(i, *this, c, incc);` -/
def Schur_update_col_a (t : LRTile α) (cutoff : Int) (fresh : Nat → α) (i : Nat)
    (b : BLRTile α) (c : Nat → α) (incc : Nat) : Nat → α :=
  b.Schur_update_col_b cutoff fresh i t c incc

/-- Source: `Schur_update_row_a(i, const BLRTile& b, c, incc)`:
`b.Schur_update_row_b(i, *this, c, incc);` -/
def Schur_update_row_a (t : LRTile α) (cutoff : Int) (fresh : Nat → α) (i : Nat)
    (b : BLRTile α) (c : Nat → α) (incc : Nat) : Nat → α :=
  b.Schur_update_row_b cutoff fresh i t c incc

/-- Source: `Schur_update_col_b(i, const LRTile& a, c, incc)`:
`DenseM_t temp1(rows(), 1), temp2(a.rank(), 1);
gemv(Trans::N, scalar_t(1.), U_, V_.ptr(0, i), 1, scalar_t(0.), temp1, cutoff);
gemv(Trans::N, scalar_t(1.), a.V(), temp1, scalar_t(0.), temp2, cutoff);
gemv(Trans::N, scalar_t(-1.), a.U(), temp2, scalar_t(1.), c, incc, cutoff);`; the result
is the buffer seen from `c`. -/
def Schur_update_col_b [CommRing α] [Star α] (t : LRTile α) (cutoff : Int) (fresh : Nat → α)
    (i : Nat) (a : LRTile α) (c : Nat → α) (incc : Nat) : Nat → α :=
  let temp1 := DenseMatrix.alloc t.rows 1 fresh
  let temp2 := DenseMatrix.alloc a.rank 1 fresh
  let temp1a := gemv_xptr Trans.N 1 t.U_ (t.V_.from_ptr 0 i) 1 0 temp1 cutoff
  let temp2a := gemv Trans.N 1 a.V temp1a 0 temp2 cutoff
  gemv_yptr Trans.N (-1) a.U temp2a 1 c incc cutoff

/-- Source: `Schur_update_col_b(i, const DenseTile& a, c, incc)`:
`DenseM_t temp(rows(), 1);
gemv(Trans::N, scalar_t(1.), U_, V_.ptr(0, i), 1, scalar_t(0.), temp, cutoff);
gemv(Trans::N, scalar_t(-1.), a.D(), temp, scalar_t(1.), c, incc, cutoff);` -/
def Schur_update_col_b_DenseTile [CommRing α] [Star α] (t : LRTile α) (cutoff : Int)
    (fresh : Nat → α) (i : Nat) (a : DenseTile α) (c : Nat → α) (incc : Nat) : Nat → α :=
  let temp := DenseMatrix.alloc t.rows 1 fresh
  let tempa := gemv_xptr Trans.N 1 t.U_ (t.V_.from_ptr 0 i) 1 0 temp cutoff
  gemv_yptr Trans.N (-1) a.D tempa 1 c incc cutoff

/-- Source: `Schur_update_row_b(i, const LRTile& a, c, incc)`:
`DenseM_t temp1(1, a.cols()), temp2(1, rank());
gemv(Trans::C, scalar_t(1.), a.V(), a.U().ptr(i, 0), a.U().ld(), scalar_t(0.),
temp1.data(), temp1.ld(), cutoff);
gemv(Trans::C, scalar_t(1.), U_, temp1.data(), temp1.ld(), scalar_t(0.), temp2.data(),
temp2.ld(), cutoff);
gemv(Trans::C, scalar_t(-1.), V_, temp2.data(), temp2.ld(), scalar_t(1.), c, incc,
cutoff);` -/
def Schur_update_row_b [CommRing α] [Star α] (t : LRTile α) (cutoff : Int) (fresh : Nat → α)
    (i : Nat) (a : LRTile α) (c : Nat → α) (incc : Nat) : Nat → α :=
  let temp1 := DenseMatrix.alloc 1 a.cols fresh
  let temp2 := DenseMatrix.alloc 1 t.rank fresh
  let temp1a := gemv_ptr Trans.C 1 a.V (a.U.from_ptr i 0) a.U.ld 0 temp1.data_ temp1.ld cutoff
  let temp2a := gemv_ptr Trans.C 1 t.U_ temp1a temp1.ld 0 temp2.data_ temp2.ld cutoff
  gemv_ptr Trans.C (-1) t.V_ temp2a temp2.ld 1 c incc cutoff

/-- Source: `Schur_update_row_b(i, const DenseTile& a, c, incc)`:
`DenseM_t temp(1, rank());
gemv(Trans::C, scalar_t(1.), U(), a.D().ptr(i, 0), a.D().ld(), scalar_t(0.), temp.data(),
temp.ld(), cutoff);
gemv(Trans::C, scalar_t(-1.), V(), temp.data(), temp.ld(), scalar_t(1.), c, incc,
cutoff);` -/
def Schur_update_row_b_DenseTile [CommRing α] [Star α] (t : LRTile α) (cutoff : Int)
    (fresh : Nat → α) (i : Nat) (a : DenseTile α) (c : Nat → α) (incc : Nat) : Nat → α :=
  let temp := DenseMatrix.alloc 1 t.rank fresh
  let tempa := gemv_ptr Trans.C 1 t.U (a.D.from_ptr i 0) a.D.ld 0 temp.data_ temp.ld cutoff
  gemv_ptr Trans.C (-1) t.V tempa temp.ld 1 c incc cutoff

/-- The low-rank tile seen through the interface `BLRTile`: the virtual calls resolve
to the overloads of `LRTile` that take an `LRTile`. -/
def toBLRTile [CommRing α] [Star α] (t : LRTile α) : BLRTile α :=
  ⟨fun cutoff fresh ta tb alpha a beta c => t.gemm_b cutoff fresh ta tb alpha a beta c,
   fun cutoff fresh i a c incc => t.Schur_update_col_b cutoff fresh i a c incc,
   fun cutoff fresh i a c incc => t.Schur_update_row_b cutoff fresh i a c incc⟩

end LRTile

/-- Number of columns of `op(a)` for the flag `ta`, the inner dimension of a product
`op(a) * op(b)`. -/
def opCols {α : Type} (ta : Trans) (a : DenseMatrix α) : Nat :=
  if ta = Trans.N then a.cols else a.rows

/-- Number of rows of `op(a)` for the flag `ta`. -/
def opRows {α : Type} (ta : Trans) (a : DenseMatrix α) : Nat :=
  if ta = Trans.N then a.rows else a.cols

/-! ## The accessors of `LRTile`, overload by overload -/

namespace LRTile

variable {α : Type}

/-- Source: `const DenseM_t& D() const override { assert(false); return U_; }`, the
`const` overload of `D()`, with the assertion checked. -/
def D_const (_t : LRTile α) : Option (DenseMatrix α) := none

/-- Source: `const DenseM_t& U() const override { return U_; }` -/
def U_const (t : LRTile α) : DenseMatrix α := t.U_

/-- Source: `const DenseM_t& V() const override { return V_; }` -/
def V_const (t : LRTile α) : DenseMatrix α := t.V_

/-- What both overloads of `D()` return when the assertion is compiled out (`NDEBUG`):
the statement `return U_;` runs, so the caller gets the factor `U`. -/
def D_unchecked (t : LRTile α) : DenseMatrix α := t.U_

end LRTile

/-! ## The test driver `test_sparse_seq_mixed.cpp` -/

/-- The member functions of the solver that `test_sparse_solver` calls. -/
inductive SolverCall where
  | set_from_command_line
  | set_matrix
  | reorder
  | factor
  | refine
  deriving DecidableEq

/-- The solver `StrumpackSparseSolverMixedPrecision`, taken as a parameter (its class
is not among the sources): a state `σ` and, for each member function the driver calls,
its effect on the state and its result.  `Args` is the command line, `M` the matrix type,
`RC` the type `ReturnCode` and `R` the result type of `refine()`. -/
structure MixedPrecisionSolver (σ Args M RC R : Type) where
  set_from_command_line : Args → σ → σ
  set_matrix : M → σ → σ
  reorder : σ → RC × σ
  factor : σ → RC × σ
  refine : σ → R × σ

/-- Source: `test_sparse_solver(argc, argv, A)`: `set_from_command_line`, `set_matrix(A)`,
then `if (solver_mx.reorder() != ReturnCode::SUCCESS) return 1;`,
`if (solver_mx.factor() != ReturnCode::SUCCESS) return 1;`, `solver_mx.refine();
return 0;`.  The result is the returned `int`, the calls made on the solver in order, and
the final state of the solver.  The right-hand side `b = A * x_exact` that the driver
also computes is used by no later statement (the residual check is commented out) and is
left out, as is the output to `cout`. -/
def test_sparse_solver {σ Args M RC R : Type} [DecidableEq RC] (SUCCESS : RC)
    (solver_mx : MixedPrecisionSolver σ Args M RC R) (args : Args) (A : M) (init : σ) :
    Int × List SolverCall × σ :=
  let s0 := solver_mx.set_from_command_line args init
  let s1 := solver_mx.set_matrix A s0
  let r := solver_mx.reorder s1
  if r.1 ≠ SUCCESS then
    (1, [SolverCall.set_from_command_line, SolverCall.set_matrix, SolverCall.reorder], r.2)
  else
    let f := solver_mx.factor r.2
    if f.1 ≠ SUCCESS then
      (1, [SolverCall.set_from_command_line, SolverCall.set_matrix, SolverCall.reorder,
        SolverCall.factor], f.2)
    else
      let q := solver_mx.refine f.2
      (0, [SolverCall.set_from_command_line, SolverCall.set_matrix, SolverCall.reorder,
        SolverCall.factor, SolverCall.refine], q.2)

/-- A solver whose state counts the calls and whose `reorder`, `factor` and `refine`
return the given codes. -/
def exampleSolver (rc fc : Nat) (q : Int) : MixedPrecisionSolver Nat Unit Unit Nat Int :=
  ⟨fun _ s => s + 1, fun _ s => s + 1, fun s => (rc, s + 1), fun s => (fc, s + 1),
    fun s => (q, s + 1)⟩

/-! ## Concrete data for the examples -/

/-- A 2 x 3 integer matrix with leading dimension 2 and entries `1 + offset`. -/
def exampleDense : DenseMatrix Int := ⟨2, 3, 2, fun p => 1 + (p : Int)⟩

/-- Kernels that return factors of rank 1 with the dimensions of the input:
`U` is `m x 1` and `V` is `1 x n`, both filled with ones. -/
def exampleKernels : CompressionKernels Int Unit :=
  ⟨fun T _ _ _ _ => (⟨T.rows, 1, T.rows, fun _ => 1⟩, ⟨1, T.cols, 1, fun _ => 1⟩),
   fun m n _ _ _ _ => (⟨m, 1, m, fun _ => 1⟩, ⟨1, n, 1, fun _ => 1⟩)⟩

/-- A low-rank tile with `U` of size 3 x 2 (leading dimension 4) and `V` of size
2 x 2. -/
def exampleTile : LRTile Int :=
  ⟨⟨3, 2, 4, fun p => 1 + (p : Int)⟩, ⟨2, 2, 2, fun p => 2 * (p : Int) - 3⟩⟩

/-- A 3 x 2 output matrix with leading dimension 3. -/
def exampleOut : DenseMatrix Int := ⟨3, 2, 3, fun p => 7 - (p : Int)⟩

/-- A low-rank tile over the rationals with `U` of size 2 x 1 and `V` of size 1 x 2. -/
def exampleTileQ : LRTile ℚ :=
  ⟨⟨2, 1, 2, fun p => 1 + (p : ℚ)⟩, ⟨1, 2, 1, fun p => 3 - (p : ℚ)⟩⟩

/-- A 2 x 2 matrix over the rationals with entries 2, 5 (first column) and 3, 4. -/
def exampleTriQ : DenseMatrix ℚ := ⟨2, 2, 2, fun p => if p = 0 then 2 else if p = 1 then 5
  else if p = 2 then 3 else 4⟩

/-- A 2 x 2 output matrix over the rationals. -/
def exampleOutQ : DenseMatrix ℚ := ⟨2, 2, 2, fun p => (p : ℚ)⟩

/-- A 3 x 3 integer matrix with leading dimension 3. -/
def exampleSquare : DenseMatrix Int := ⟨3, 3, 3, fun p => (p : Int) - 4⟩

/-- A 2 x 2 integer matrix with leading dimension 2. -/
def exampleSmall : DenseMatrix Int := ⟨2, 2, 2, fun p => 2 - (p : Int)⟩

/-- A low-rank tile with `U` of size 2 x 1 and `V` of size 1 x 3. -/
def exampleTile2 : LRTile Int :=
  ⟨⟨2, 1, 2, fun p => 2 + (p : Int)⟩, ⟨1, 3, 1, fun p => 1 - (p : Int)⟩⟩

/-- A low-rank tile over the Gaussian integers: `U` is the column (1, 2), `V` the row
(i, 1), so the materialization is `A = [[i, 1], [2i, 2]]`. -/
def exampleTileGa : LRTile GaussianInt :=
  ⟨⟨2, 1, 2, fun p => if p = 0 then 1 else 2⟩,
   ⟨1, 2, 1, fun p => if p = 0 then ⟨0, 1⟩ else 1⟩⟩

/-- A low-rank tile over the Gaussian integers: `U` is the column (1, 1), `V` the row
(1, i), so the materialization is `B = [[1, i], [1, i]]`. -/
def exampleTileGb : LRTile GaussianInt :=
  ⟨⟨2, 1, 2, fun _ => 1⟩, ⟨1, 2, 1, fun p => if p = 0 then 1 else ⟨0, 1⟩⟩⟩

/-- The dense tile with block `[[i, 1], [2i, 2]]` over the Gaussian integers. -/
def exampleDenseG : DenseTile GaussianInt :=
  ⟨⟨2, 2, 2, fun p => if p = 0 then ⟨0, 1⟩ else if p = 1 then ⟨0, 2⟩
    else if p = 2 then 1 else 2⟩⟩

/-! ## Lemmas on machine integers -/

theorem wrapInt_of_range {x : Int} (h0 : 0 ≤ x) (h1 : x ≤ INT_MAX) : wrapInt x = x := by
  unfold wrapInt
  unfold INT_MAX at h1
  rw [Int.emod_eq_of_lt (by omega) (by omega)]
  omega

theorem g2p_value (g : ProcessorGrid2D) (I J : Int)
    (hPr : 0 < g.nprows_) (hPc : 0 < g.npcols_) (hfit : g.nprows_ * g.npcols_ ≤ INT_MAX)
    (hI : 0 ≤ I) (hJ : 0 ≤ J) :
    g.g2p I J = I % g.nprows_ + (J % g.npcols_) * g.nprows_ ∧
      0 ≤ J % g.npcols_ * g.nprows_ ∧
      I % g.nprows_ + (J % g.npcols_) * g.nprows_ < g.nprows_ * g.npcols_ := by
  have hi0 : 0 ≤ I % g.nprows_ := Int.emod_nonneg _ (by omega)
  have hi1 : I % g.nprows_ < g.nprows_ := Int.emod_lt_of_pos _ hPr
  have hj0 : 0 ≤ J % g.npcols_ := Int.emod_nonneg _ (by omega)
  have hj1 : J % g.npcols_ < g.npcols_ := Int.emod_lt_of_pos _ hPc
  have hm0 : 0 ≤ (J % g.npcols_) * g.nprows_ := Int.mul_nonneg hj0 (by omega)
  have hm1 : (J % g.npcols_) * g.nprows_ ≤ (g.npcols_ - 1) * g.nprows_ :=
    Int.mul_le_mul_of_nonneg_right (by omega) (by omega)
  have hsum : I % g.nprows_ + (J % g.npcols_) * g.nprows_ < g.nprows_ * g.npcols_ := by
    nlinarith
  refine ⟨?_, hm0, hsum⟩
  unfold ProcessorGrid2D.g2p ProcessorGrid2D.rg2p ProcessorGrid2D.cg2p
    ProcessorGrid2D.nprows ProcessorGrid2D.npcols
  rw [Int.tmod_eq_emod hI (by omega), Int.tmod_eq_emod hJ (by omega)]
  rw [wrapInt_of_range hm0 (by omega), wrapInt_of_range (by omega) (by omega)]

/-! ## Theorems on the process grid -/

/-- C1: on a `Pr x Pc` grid (`Pr, Pc > 0`, `Pr*Pc` an `int`) and for tile coordinates
`I, J >= 0`, the rank `g2p(I,J)` lies in `[0, npactives())`, and among the ranks
`r` in `[0, Pr*Pc)`, each with `prow = r mod Pr` and `pcol = r div Pr`, `is_local(I,J)`
is true for `g2p(I,J)` and for no other rank. -/
theorem g2p_is_unique_local_rank (Pr Pc I J r0 : Int)
    (hPr : 0 < Pr) (hPc : 0 < Pc) (hfit : Pr * Pc ≤ INT_MAX) (hI : 0 ≤ I) (hJ : 0 ≤ J) :
    0 ≤ (gridOfRank Pr Pc r0).g2p I J ∧
      (gridOfRank Pr Pc r0).g2p I J < (gridOfRank Pr Pc r0).npactives ∧
      (∀ r : Int, 0 ≤ r → r < Pr * Pc →
        ((gridOfRank Pr Pc r).is_local I J = true ↔ r = (gridOfRank Pr Pc r0).g2p I J)) ∧
      (∃! r : Int, (0 ≤ r ∧ r < Pr * Pc) ∧ (gridOfRank Pr Pc r).is_local I J = true) := by
  obtain ⟨hg, hm0, hlt⟩ := g2p_value (gridOfRank Pr Pc r0) I J hPr hPc hfit hI hJ
  change 0 ≤ J % Pc * Pr at hm0
  change I % Pr + J % Pc * Pr < Pr * Pc at hlt
  have hnp : (gridOfRank Pr Pc r0).npactives = Pr * Pc := by
    show wrapInt (Pr * Pc) = Pr * Pc
    exact wrapInt_of_range (by positivity) hfit
  have hg2 : (gridOfRank Pr Pc r0).g2p I J = I % Pr + (J % Pc) * Pr := hg
  have hi0 : 0 ≤ I % Pr := Int.emod_nonneg _ (by omega)
  have hi1 : I % Pr < Pr := Int.emod_lt_of_pos _ hPr
  have key : ∀ r : Int, 0 ≤ r → r < Pr * Pc →
      ((gridOfRank Pr Pc r).is_local I J = true ↔ r = I % Pr + (J % Pc) * Pr) := by
    intro r hr0 _
    simp only [ProcessorGrid2D.is_local, ProcessorGrid2D.is_local_row,
      ProcessorGrid2D.is_local_col, gridOfRank, Bool.and_eq_true, decide_eq_true_eq]
    rw [Int.tmod_eq_emod hI (by omega), Int.tmod_eq_emod hJ (by omega),
      Int.tmod_eq_emod hr0 (by omega), Int.tdiv_eq_ediv hr0 (by omega)]
    constructor
    · rintro ⟨h1, h2⟩
      have := Int.emod_add_ediv r Pr
      rw [h1, h2]
      linarith [mul_comm Pr (r / Pr)]
    · intro h
      subst h
      constructor
      · rw [Int.add_mul_emod_self, Int.emod_emod_of_dvd _ (dvd_refl _)]
      · rw [Int.add_mul_ediv_right _ _ (by omega), Int.ediv_eq_zero_of_lt hi0 hi1]
        simp
  have hown : (0 ≤ I % Pr + (J % Pc) * Pr ∧ I % Pr + (J % Pc) * Pr < Pr * Pc) :=
    ⟨by omega, hlt⟩
  refine ⟨by rw [hg2]; exact hown.1, by rw [hg2, hnp]; exact hown.2, ?_, ?_⟩
  · intro r h0 h1
    rw [hg2]
    exact key r h0 h1
  · refine ⟨I % Pr + (J % Pc) * Pr, ⟨hown, (key _ hown.1 hown.2).2 rfl⟩, ?_⟩
    rintro y ⟨⟨hy0, hy1⟩, hy⟩
    exact (key y hy0 hy1).1 hy

/-- Witness for C1 on the 2 x 3 grid, tile (5,7), seen from rank 4. -/
theorem g2p_is_unique_local_rank_witness :
    0 ≤ (gridOfRank 2 3 4).g2p 5 7 ∧
      (gridOfRank 2 3 4).g2p 5 7 < (gridOfRank 2 3 4).npactives ∧
      (∀ r : Int, 0 ≤ r → r < 2 * 3 →
        ((gridOfRank 2 3 r).is_local 5 7 = true ↔ r = (gridOfRank 2 3 4).g2p 5 7)) ∧
      (∃! r : Int, (0 ≤ r ∧ r < 2 * 3) ∧ (gridOfRank 2 3 r).is_local 5 7 = true) :=
  g2p_is_unique_local_rank 2 3 5 7 4 (by decide) (by decide) (by decide) (by decide)
    (by decide)

/-- C2: for `Pr, Pc > 0` (with `Pr*Pc` an `int`) and `I, J >= 0`, the rank
`g2p(I,J) = rg2p(I) + cg2p(J)*nprows()` satisfies `g2p(I,J) mod Pr = I mod Pr` and
`g2p(I,J) div Pr = J mod Pc`. -/
theorem g2p_decomposes_to_owner (g : ProcessorGrid2D) (I J : Int)
    (hPr : 0 < g.nprows) (hPc : 0 < g.npcols) (hfit : g.nprows * g.npcols ≤ INT_MAX)
    (hI : 0 ≤ I) (hJ : 0 ≤ J) :
    g.g2p I J = g.rg2p I + g.cg2p J * g.nprows ∧
      Int.tmod (g.g2p I J) g.nprows = Int.tmod I g.nprows ∧
      Int.tdiv (g.g2p I J) g.nprows = Int.tmod J g.npcols := by
  obtain ⟨hg, hm0, _⟩ := g2p_value g I J hPr hPc hfit hI hJ
  have hPr1 : 0 < g.nprows_ := hPr
  have hPc1 : 0 < g.npcols_ := hPc
  have hi0 : 0 ≤ I % g.nprows_ := Int.emod_nonneg _ (by omega)
  have hi1 : I % g.nprows_ < g.nprows_ := Int.emod_lt_of_pos _ hPr
  have hge : 0 ≤ g.g2p I J := by rw [hg]; omega
  simp only [ProcessorGrid2D.rg2p, ProcessorGrid2D.cg2p, ProcessorGrid2D.nprows,
    ProcessorGrid2D.npcols]
  rw [Int.tmod_eq_emod hge (by omega), Int.tdiv_eq_ediv hge (by omega),
    Int.tmod_eq_emod hI (by omega), Int.tmod_eq_emod hJ (by omega), hg]
  refine ⟨rfl, ?_, ?_⟩
  · rw [Int.add_mul_emod_self, Int.emod_emod_of_dvd _ (dvd_refl _)]
  · rw [Int.add_mul_ediv_right _ _ (by omega), Int.ediv_eq_zero_of_lt hi0 hi1]
    simp

/-- Witness for C2 on the 2 x 3 grid, tile (5,7). -/
theorem g2p_decomposes_to_owner_witness :
    (gridOfRank 2 3 0).g2p 5 7 = (gridOfRank 2 3 0).rg2p 5
        + (gridOfRank 2 3 0).cg2p 7 * (gridOfRank 2 3 0).nprows ∧
      Int.tmod ((gridOfRank 2 3 0).g2p 5 7) (gridOfRank 2 3 0).nprows
        = Int.tmod 5 (gridOfRank 2 3 0).nprows ∧
      Int.tdiv ((gridOfRank 2 3 0).g2p 5 7) (gridOfRank 2 3 0).nprows
        = Int.tmod 7 (gridOfRank 2 3 0).npcols :=
  g2p_decomposes_to_owner (gridOfRank 2 3 0) 5 7 (by decide) (by decide) (by decide)
    (by decide) (by decide)

/-! ## Theorems on the partition and the local tile store -/

theorem toSizeT_natCast {n : Nat} (h : n < SIZE_T_MOD) : toSizeT (n : Int) = n := by
  unfold toSizeT
  rw [Int.emod_eq_of_lt (by omega) (by exact_mod_cast h)]
  simp

theorem toInt_of_le {n : Nat} (h : (n : Int) ≤ INT_MAX) : toInt n = n :=
  wrapInt_of_range (by omega) h

theorem INT_MAX_lt_SIZE_T_MOD {n : Nat} (h : (n : Int) ≤ INT_MAX) : n < SIZE_T_MOD := by
  unfold INT_MAX at h
  unfold SIZE_T_MOD
  omega

theorem tileg2l_local (N : Nat) (p : Int) (I : Nat) (h0 : 0 < N) (h1 : (N : Int) ≤ INT_MAX)
    (hloc : I % N = p) :
    (if toInt (I % toSizeT (N : Int)) = p then some (I / toSizeT (N : Int)) else none)
      = some (I / N) := by
  have hlt : I % N < N := Nat.mod_lt _ h0
  rw [toSizeT_natCast (INT_MAX_lt_SIZE_T_MOD h1), toInt_of_le (by omega)]
  rw [if_pos (by exact_mod_cast hloc)]

/-- C3: on a grid with `Pr = nprows() > 0`, `Pc = npcols() > 0`, for a locally owned
tile `(I,J)` (`I mod Pr = prow`, `J mod Pc = pcol`) whose position
`(I div Pr) + (J div Pc) * rowblockslocal()` is a `std::size_t` value, `tilerg2l` and
`tilecg2l` give the local coordinates `(I div Pr, J div Pc)`, and `block(I,J)`,
`tile(I,J)` read, whenever their assertion holds, the slot of `blocks_` at that
position (column-major order of the local coordinates). -/
theorem tile_block_read_local_slot {τ : Type} (m : BLRMatrixMPI τ) (Pr Pc I J : Nat)
    (hPr : 0 < Pr) (hPc : 0 < Pc)
    (hnr : m.grid_.nprows = Pr) (hnc : m.grid_.npcols = Pc)
    (hPrmax : (Pr : Int) ≤ INT_MAX) (hPcmax : (Pc : Int) ≤ INT_MAX)
    (hrow : ((I % Pr : Nat) : Int) = m.grid_.prow)
    (hcol : ((J % Pc : Nat) : Int) = m.grid_.pcol)
    (hpos : I / Pr + (J / Pc) * m.rowblockslocal < SIZE_T_MOD) :
    m.tilerg2l I = some (I / Pr) ∧ m.tilecg2l J = some (J / Pc) ∧
      m.block I J = (if I < m.rowblocks ∧ J < m.colblocks then
        m.blocks_[I / Pr + (J / Pc) * m.rowblockslocal]? else none) ∧
      m.tile I J = (if I / Pr < m.rowblockslocal ∧ J / Pc < m.colblockslocal then
        m.blocks_[I / Pr + (J / Pc) * m.rowblockslocal]? else none) := by
  have hr : m.tilerg2l I = some (I / Pr) := by
    unfold BLRMatrixMPI.tilerg2l
    rw [hnr]
    exact tileg2l_local Pr _ I hPr hPrmax hrow
  have hc : m.tilecg2l J = some (J / Pc) := by
    unfold BLRMatrixMPI.tilecg2l
    rw [hnc]
    exact tileg2l_local Pc _ J hPc hPcmax hcol
  have hidx : m.lindex (I / Pr) (J / Pc) = I / Pr + (J / Pc) * m.rowblockslocal := by
    unfold BLRMatrixMPI.lindex
    rw [Nat.mod_eq_of_lt (a := J / Pc * m.rowblockslocal)
      (Nat.lt_of_le_of_lt (Nat.le_add_left _ _) hpos)]
    exact Nat.mod_eq_of_lt hpos
  refine ⟨hr, hc, ?_, ?_⟩
  · unfold BLRMatrixMPI.block
    simp only [hr, hc, Option.some_bind, hidx]
  · unfold BLRMatrixMPI.tile BLRMatrixMPI.ltile
    simp only [hr, hc, Option.some_bind, hidx]

/-- Witness for C3: tile (1,4) of `exampleMatrix`, local coordinates (0,1), slot 1. -/
theorem tile_block_read_local_slot_witness :
    exampleMatrix.tilerg2l 1 = some (1 / 2) ∧ exampleMatrix.tilecg2l 4 = some (4 / 3) ∧
      exampleMatrix.block 1 4 = (if 1 < exampleMatrix.rowblocks ∧ 4 < exampleMatrix.colblocks
        then exampleMatrix.blocks_[1 / 2 + (4 / 3) * exampleMatrix.rowblockslocal]?
        else none) ∧
      exampleMatrix.tile 1 4 = (if 1 / 2 < exampleMatrix.rowblockslocal ∧
          4 / 3 < exampleMatrix.colblockslocal
        then exampleMatrix.blocks_[1 / 2 + (4 / 3) * exampleMatrix.rowblockslocal]?
        else none) :=
  tile_block_read_local_slot exampleMatrix 2 3 1 4 (by decide) (by decide) rfl rfl
    (by decide) (by decide) (by decide) (by decide) (by decide)

theorem offsets_partition (off : Nat → Nat) (n : Nat) (hn : n < SIZE_T_MOD)
    (hsz : ∀ i, i ≤ n → off i < SIZE_T_MOD)
    (hmono : ∀ i, i < n → off i ≤ off (i + 1)) (h0 : off 0 = 0) :
    (∀ i, i < n →
      off i + (off ((i + 1) % SIZE_T_MOD) + SIZE_T_MOD - off i) % SIZE_T_MOD = off (i + 1) ∧
      (((off ((i + 1) % SIZE_T_MOD) + SIZE_T_MOD - off i) % SIZE_T_MOD : Nat) : Int)
        = (off (i + 1) : Int) - (off i : Int)) ∧
    (Finset.sum (Finset.range n)
      fun i => (off ((i + 1) % SIZE_T_MOD) + SIZE_T_MOD - off i) % SIZE_T_MOD) = off n := by
  have step : ∀ i, i < n →
      (off ((i + 1) % SIZE_T_MOD) + SIZE_T_MOD - off i) % SIZE_T_MOD = off (i + 1) - off i := by
    intro i hi
    have h1 : (i + 1) % SIZE_T_MOD = i + 1 := Nat.mod_eq_of_lt (by omega)
    have h2 := hmono i hi
    have h3 := hsz (i + 1) (by omega)
    rw [h1]
    have h4 : off (i + 1) + SIZE_T_MOD - off i = (off (i + 1) - off i) + SIZE_T_MOD := by
      omega
    rw [h4, Nat.add_mod_right]
    exact Nat.mod_eq_of_lt (by omega)
  refine ⟨?_, ?_⟩
  · intro i hi
    have h2 := hmono i hi
    rw [step i hi]
    constructor <;> omega
  · have sum_k : ∀ k, k ≤ n → (Finset.sum (Finset.range k)
        fun i => (off ((i + 1) % SIZE_T_MOD) + SIZE_T_MOD - off i) % SIZE_T_MOD) = off k := by
      intro k
      induction k with
      | zero => intro _; simp [h0]
      | succ k ih =>
        intro hk
        rw [Finset.sum_range_succ, ih (by omega), step k (by omega)]
        have := hmono k (by omega)
        omega
    exact sum_k n (le_refl n)

/-- C4: when `roff_` has `brows+1` entries, is non-decreasing, starts at 0 and ends at
`rows` (all `std::size_t` values), then for every `I < brows`
`tileroff(I) + tilerows(I) = tileroff(I+1)`, the `size_t` subtraction in `tilerows` does
not wrap (it is the integer difference), and the `tilerows(I)` sum to `rows`; the same
for `coff_`, `tilecoff`, `tilecols` and `cols`. -/
theorem tiles_partition_rows_and_cols {τ : Type} (m : BLRMatrixMPI τ)
    (hbr : m.rowblocks < SIZE_T_MOD) (hbc : m.colblocks < SIZE_T_MOD)
    (_hrlen : m.roff_.length = m.rowblocks + 1)
    (_hclen : m.coff_.length = m.colblocks + 1)
    (hrsz : ∀ i, i ≤ m.rowblocks → m.tileroff i < SIZE_T_MOD)
    (hcsz : ∀ j, j ≤ m.colblocks → m.tilecoff j < SIZE_T_MOD)
    (hrmono : ∀ i, i < m.rowblocks → m.tileroff i ≤ m.tileroff (i + 1))
    (hcmono : ∀ j, j < m.colblocks → m.tilecoff j ≤ m.tilecoff (j + 1))
    (hr0 : m.tileroff 0 = 0) (hc0 : m.tilecoff 0 = 0)
    (hrlast : m.tileroff m.rowblocks = m.rows) (hclast : m.tilecoff m.colblocks = m.cols) :
    ((∀ I, I < m.rowblocks →
        m.tileroff I + m.tilerows I = m.tileroff (I + 1) ∧
        (m.tilerows I : Int) = (m.tileroff (I + 1) : Int) - (m.tileroff I : Int)) ∧
      (Finset.sum (Finset.range m.rowblocks) fun I => m.tilerows I) = m.rows) ∧
    ((∀ J, J < m.colblocks →
        m.tilecoff J + m.tilecols J = m.tilecoff (J + 1) ∧
        (m.tilecols J : Int) = (m.tilecoff (J + 1) : Int) - (m.tilecoff J : Int)) ∧
      (Finset.sum (Finset.range m.colblocks) fun J => m.tilecols J) = m.cols) := by
  have hr := offsets_partition (fun i => m.roff_.getD i 0) m.rowblocks hbr hrsz hrmono hr0
  have hc := offsets_partition (fun j => m.coff_.getD j 0) m.colblocks hbc hcsz hcmono hc0
  refine ⟨⟨hr.1, ?_⟩, ⟨hc.1, ?_⟩⟩
  · rw [← hrlast]; exact hr.2
  · rw [← hclast]; exact hc.2

/-- Witness for C4: the partition of `exampleMatrix` (row offsets 0,2,5,8 and column
offsets 0,3,5,8,10,13). -/
theorem tiles_partition_rows_and_cols_witness :
    ((∀ I, I < exampleMatrix.rowblocks →
        exampleMatrix.tileroff I + exampleMatrix.tilerows I = exampleMatrix.tileroff (I + 1) ∧
        (exampleMatrix.tilerows I : Int)
          = (exampleMatrix.tileroff (I + 1) : Int) - (exampleMatrix.tileroff I : Int)) ∧
      (Finset.sum (Finset.range exampleMatrix.rowblocks) fun I => exampleMatrix.tilerows I)
        = exampleMatrix.rows) ∧
    ((∀ J, J < exampleMatrix.colblocks →
        exampleMatrix.tilecoff J + exampleMatrix.tilecols J = exampleMatrix.tilecoff (J + 1) ∧
        (exampleMatrix.tilecols J : Int)
          = (exampleMatrix.tilecoff (J + 1) : Int) - (exampleMatrix.tilecoff J : Int)) ∧
      (Finset.sum (Finset.range exampleMatrix.colblocks) fun J => exampleMatrix.tilecols J)
        = exampleMatrix.cols) :=
  tiles_partition_rows_and_cols exampleMatrix (by decide) (by decide) rfl rfl
    (by decide) (by decide) (by decide) (by decide) rfl rfl rfl rfl

/-! ## Lemmas on dense matrices -/

theorem sumUpTo_eq_sum {α : Type} [AddCommMonoid α] (n : Nat) (f : Nat → α) :
    sumUpTo n f = Finset.sum (Finset.range n) f := by
  induction n with
  | zero => simp [sumUpTo]
  | succ n ih => rw [sumUpTo, ih, Finset.sum_range_succ]

theorem sumUpTo_congr {α : Type} [AddMonoid α] (n : Nat) (f g : Nat → α)
    (h : ∀ k, k < n → f k = g k) : sumUpTo n f = sumUpTo n g := by
  induction n with
  | zero => rfl
  | succ n ih =>
    rw [sumUpTo, sumUpTo, ih (fun k hk => h k (by omega)), h n (by omega)]

theorem ptr_mod {α : Type} (A : DenseMatrix α) (i j : Nat) (hi : i < A.ld_) :
    (i + j * A.ld_) % A.ld_ = i := by
  rw [Nat.add_mul_mod_self_right]
  exact Nat.mod_eq_of_lt hi

theorem ptr_div {α : Type} (A : DenseMatrix α) (i j : Nat) (hi : i < A.ld_) :
    (i + j * A.ld_) / A.ld_ = j := by
  rw [Nat.add_mul_div_right _ _ (by omega), Nat.div_eq_of_lt hi]
  simp

theorem get_overwrite {α : Type} (A : DenseMatrix α) (f : Nat → Nat → α) (i j : Nat)
    (hA : A.wellFormed) (hi : i < A.rows) (hj : j < A.cols) :
    (A.overwrite f).get i j = f i j := by
  have hld : i < A.ld_ := Nat.lt_of_lt_of_le hi hA
  show (if (i + j * A.ld_) % A.ld_ < A.rows_ ∧ (i + j * A.ld_) / A.ld_ < A.cols_
    then f ((i + j * A.ld_) % A.ld_) ((i + j * A.ld_) / A.ld_) else A.data_ (i + j * A.ld_))
    = f i j
  rw [ptr_mod A i j hld, ptr_div A i j hld, if_pos ⟨hi, hj⟩]

theorem DenseMatrix.eq_of_fields {α : Type} (A B : DenseMatrix α) (h1 : A.rows_ = B.rows_)
    (h2 : A.cols_ = B.cols_) (h3 : A.ld_ = B.ld_) (h4 : ∀ p, A.data_ p = B.data_ p) :
    A = B := by
  cases A
  cases B
  simp only [DenseMatrix.mk.injEq]
  exact ⟨h1, h2, h3, funext h4⟩

theorem data_eq_get {α : Type} (A : DenseMatrix α) (p : Nat) :
    A.data_ p = A.get (p % A.ld_) (p / A.ld_) := by
  show A.data_ p = A.data_ (p % A.ld_ + p / A.ld_ * A.ld_)
  rw [Nat.mul_comm, Nat.mod_add_div]

theorem overwrite_congr {α : Type} (A : DenseMatrix α) (f g : Nat → Nat → α)
    (h : ∀ a j, a < A.rows → j < A.cols → f a j = g a j) : A.overwrite f = A.overwrite g := by
  refine DenseMatrix.eq_of_fields _ _ rfl rfl rfl fun p => ?_
  show (if p % A.ld_ < A.rows_ ∧ p / A.ld_ < A.cols_ then f (p % A.ld_) (p / A.ld_)
      else A.data_ p)
    = (if p % A.ld_ < A.rows_ ∧ p / A.ld_ < A.cols_ then g (p % A.ld_) (p / A.ld_)
      else A.data_ p)
  by_cases hw : p % A.ld_ < A.rows_ ∧ p / A.ld_ < A.cols_
  · rw [if_pos hw, if_pos hw]
    exact h _ _ hw.1 hw.2
  · rw [if_neg hw, if_neg hw]

theorem overwrite_overwrite {α : Type} (A : DenseMatrix α) (f g : Nat → Nat → α) :
    (A.overwrite f).overwrite g = A.overwrite g := by
  refine DenseMatrix.eq_of_fields _ _ rfl rfl rfl fun p => ?_
  show (if p % A.ld_ < A.rows_ ∧ p / A.ld_ < A.cols_ then g (p % A.ld_) (p / A.ld_)
      else (if p % A.ld_ < A.rows_ ∧ p / A.ld_ < A.cols_ then f (p % A.ld_) (p / A.ld_)
        else A.data_ p))
    = (if p % A.ld_ < A.rows_ ∧ p / A.ld_ < A.cols_ then g (p % A.ld_) (p / A.ld_)
      else A.data_ p)
  by_cases hw : p % A.ld_ < A.rows_ ∧ p / A.ld_ < A.cols_
  · rw [if_pos hw, if_pos hw]
  · rw [if_neg hw, if_neg hw, if_neg hw]

theorem overwrite_get_self {α : Type} (A : DenseMatrix α) :
    A.overwrite (fun a j => A.get a j) = A := by
  refine DenseMatrix.eq_of_fields _ _ rfl rfl rfl fun p => ?_
  show (if p % A.ld_ < A.rows_ ∧ p / A.ld_ < A.cols_ then A.get (p % A.ld_) (p / A.ld_)
      else A.data_ p) = A.data_ p
  rw [← data_eq_get, ite_self]

theorem get_rowSwap {α : Type} (A : DenseMatrix α) (i t a j : Nat)
    (hA : A.wellFormed) (ha : a < A.rows) (hj : j < A.cols) :
    (A.rowSwap i t).get a j
      = if a = i then A.get t j else if a = t then A.get i j else A.get a j :=
  get_overwrite A _ a j hA ha hj

theorem rowSwap_rowSwap {α : Type} (A : DenseMatrix α) (i t : Nat)
    (hA : A.wellFormed) (hi : i < A.rows) (ht : t < A.rows) :
    (A.rowSwap i t).rowSwap i t = A := by
  have hA2 : (A.rowSwap i t).wellFormed := hA
  have e : (A.rowSwap i t).rowSwap i t = A.overwrite fun a j => A.get a j := by
    show ((A.overwrite _).overwrite _) = _
    rw [overwrite_overwrite]
    refine overwrite_congr A _ _ fun a j ha hj => ?_
    show (if a = i then (A.rowSwap i t).get t j else if a = t then (A.rowSwap i t).get i j
      else (A.rowSwap i t).get a j) = A.get a j
    rw [get_rowSwap A i t t j hA ht hj, get_rowSwap A i t i j hA hi hj,
      get_rowSwap A i t a j hA ha hj]
    by_cases h1 : a = i
    · subst h1
      by_cases h2 : t = a
      · subst h2; simp
      · simp [h2]
    · by_cases h2 : a = t
      · subst h2; simp [h1]
      · simp [h1, h2]
  rw [e, overwrite_get_self]

theorem foldl_rowSwap_rows {α : Type} (l : List (Nat × Nat)) (A : DenseMatrix α) :
    (l.foldl (fun B s => B.rowSwap s.1 s.2) A).rows_ = A.rows_ ∧
      (l.foldl (fun B s => B.rowSwap s.1 s.2) A).cols_ = A.cols_ ∧
      (l.foldl (fun B s => B.rowSwap s.1 s.2) A).ld_ = A.ld_ := by
  induction l generalizing A with
  | nil => exact ⟨rfl, rfl, rfl⟩
  | cons s l ih => exact ih (A.rowSwap s.1 s.2)

theorem foldl_rowSwap_reverse {α : Type} (l : List (Nat × Nat)) (A : DenseMatrix α)
    (hA : A.wellFormed) (hl : ∀ s, s ∈ l → s.1 < A.rows ∧ s.2 < A.rows) :
    l.reverse.foldl (fun B s => B.rowSwap s.1 s.2) (l.foldl (fun B s => B.rowSwap s.1 s.2) A)
      = A := by
  induction l generalizing A with
  | nil => rfl
  | cons s l ih =>
    have hs := hl s (List.mem_cons_self _ _)
    rw [List.reverse_cons, List.foldl_append, List.foldl_cons, List.foldl_cons, List.foldl_nil]
    rw [ih (A.rowSwap s.1 s.2) hA fun x hx => hl x (List.mem_cons_of_mem _ hx)]
    exact rowSwap_rowSwap A s.1 s.2 hA hs.1 hs.2

theorem pivSwaps_in_range (m : Nat) (piv : List Int) (hp : DenseMatrix.validPiv m piv) :
    ∀ s, s ∈ DenseMatrix.pivSwaps m piv → s.1 < m ∧ s.2 < m := by
  intro s hs
  unfold DenseMatrix.pivSwaps at hs
  rw [List.mem_map] at hs
  obtain ⟨i, hi, rfl⟩ := hs
  rw [List.mem_range] at hi
  have := hp.2 i hi
  exact ⟨hi, by omega⟩

theorem laswp_shape {α : Type} (A : DenseMatrix α) (piv : List Int) (fwd : Bool) :
    (A.laswp piv fwd).rows = A.rows ∧ (A.laswp piv fwd).cols = A.cols ∧
      (A.laswp piv fwd).ld = A.ld :=
  foldl_rowSwap_rows _ A

theorem laswp_laswp {α : Type} (A : DenseMatrix α) (piv : List Int) (fwd : Bool)
    (hA : A.wellFormed) (hp : DenseMatrix.validPiv A.rows piv) :
    (A.laswp piv fwd).laswp piv (!fwd) = A := by
  have hr : (A.laswp piv fwd).rows = A.rows := (laswp_shape A piv fwd).1
  have hin := pivSwaps_in_range A.rows piv hp
  unfold DenseMatrix.laswp at hr ⊢
  rw [hr]
  cases fwd with
  | true =>
    simp only [Bool.not_true, if_true, Bool.false_eq_true, if_false]
    exact foldl_rowSwap_reverse _ A hA hin
  | false =>
    simp only [Bool.not_false, if_true, Bool.false_eq_true, if_false]
    have h := foldl_rowSwap_reverse (DenseMatrix.pivSwaps A.rows piv).reverse A hA
      (fun s hs => hin s (List.mem_reverse.1 hs))
    rw [List.reverse_reverse] at h
    exact h

theorem gemm_rowSwap {α : Type} [CommRing α] [Star α] (U V A : DenseMatrix α) (cutoff : Int)
    (i t : Nat) (hU : U.wellFormed) (hA : A.wellFormed) (hrows : A.rows = U.rows)
    (hi : i < U.rows) (ht : t < U.rows) :
    gemm Trans.N Trans.N 1 (U.rowSwap i t) V 0 A cutoff
      = (gemm Trans.N Trans.N 1 U V 0 A cutoff).rowSwap i t := by
  have hg : (gemm Trans.N Trans.N 1 U V 0 A cutoff).wellFormed := hA
  have hgr : (gemm Trans.N Trans.N 1 U V 0 A cutoff).rows = A.rows := rfl
  have hgc : (gemm Trans.N Trans.N 1 U V 0 A cutoff).cols = A.cols := rfl
  have entry : ∀ a j, a < A.rows → j < A.cols →
      (gemm Trans.N Trans.N 1 U V 0 A cutoff).get a j
        = sumUpTo U.cols fun l => U.get a l * V.get l j := by
    intro a j ha hj
    unfold gemm
    rw [get_overwrite A _ a j hA ha hj]
    simp only [DenseMatrix.opGet, one_mul, zero_mul, add_zero]
  show A.overwrite _ = (A.overwrite _).overwrite _
  rw [overwrite_overwrite]
  refine overwrite_congr A _ _ fun a j ha hj => ?_
  show (1 : α) * (sumUpTo (U.rowSwap i t).cols fun l =>
      DenseMatrix.opGet Trans.N (U.rowSwap i t) a l * DenseMatrix.opGet Trans.N V l j)
      + 0 * A.get a j
    = if a = i then (gemm Trans.N Trans.N 1 U V 0 A cutoff).get t j
      else if a = t then (gemm Trans.N Trans.N 1 U V 0 A cutoff).get i j
      else (gemm Trans.N Trans.N 1 U V 0 A cutoff).get a j
  rw [entry t j (by omega) hj, entry i j (by omega) hj, entry a j ha hj]
  simp only [DenseMatrix.opGet, one_mul, zero_mul, add_zero]
  have hsw : (sumUpTo (U.rowSwap i t).cols fun l => (U.rowSwap i t).get a l * V.get l j)
      = sumUpTo U.cols fun l =>
        (if a = i then U.get t l else if a = t then U.get i l else U.get a l) * V.get l j := by
    refine sumUpTo_congr _ _ _ fun l hl => ?_
    rw [get_rowSwap U i t a l hU (by omega) hl]
  rw [hsw]
  by_cases h1 : a = i
  · simp only [h1, if_true]
  · by_cases h2 : a = t
    · subst h2
      simp only [h1, if_true, if_false]
    · simp only [h1, h2, if_false]

theorem gemm_foldl_rowSwap {α : Type} [CommRing α] [Star α] (l : List (Nat × Nat))
    (U V A : DenseMatrix α) (cutoff : Int) (hU : U.wellFormed) (hA : A.wellFormed)
    (hrows : A.rows = U.rows) (hl : ∀ s, s ∈ l → s.1 < U.rows ∧ s.2 < U.rows) :
    gemm Trans.N Trans.N 1 (l.foldl (fun B s => B.rowSwap s.1 s.2) U) V 0 A cutoff
      = l.foldl (fun B s => B.rowSwap s.1 s.2) (gemm Trans.N Trans.N 1 U V 0 A cutoff) := by
  induction l generalizing U with
  | nil => rfl
  | cons s l ih =>
    have hs := hl s (List.mem_cons_self _ _)
    rw [List.foldl_cons, List.foldl_cons]
    rw [ih (U.rowSwap s.1 s.2) hU hrows fun x hx => hl x (List.mem_cons_of_mem _ hx)]
    rw [gemm_rowSwap U V A cutoff s.1 s.2 hU hA hrows hs.1 hs.2]

/-! ## Theorems on `LRTile` -/

/-- C5: for every dense block `T` of size `m x n` and every options record, when the
compression kernel that the constructor calls for the value of `low_rank_algorithm`
returns `U` with `m` rows and `V` with `n` columns, the tile built by `LRTile(T, opts)`
reports `rows() = m` and `cols() = n`, whatever value `low_rank_algorithm` has. -/
theorem ofDense_keeps_dimensions {α ρ : Type} [Zero α] (kernels : CompressionKernels α ρ)
    (cutoff : Int) (T : DenseMatrix α) (opts : BLROptions ρ)
    (hlr : opts.low_rank_algorithm = LowRankAlgorithm.RRQR →
      (kernels.low_rank T opts.rel_tol opts.abs_tol opts.max_rank cutoff).1.rows = T.rows ∧
      (kernels.low_rank T opts.rel_tol opts.abs_tol opts.max_rank cutoff).2.cols = T.cols)
    (haca : opts.low_rank_algorithm = LowRankAlgorithm.ACA →
      (kernels.adaptive_cross_approximation T.rows T.cols
        (fun i j => if i < T.rows ∧ j < T.cols then some (T.get i j) else none)
        opts.rel_tol opts.abs_tol opts.max_rank).1.rows = T.rows ∧
      (kernels.adaptive_cross_approximation T.rows T.cols
        (fun i j => if i < T.rows ∧ j < T.cols then some (T.get i j) else none)
        opts.rel_tol opts.abs_tol opts.max_rank).2.cols = T.cols) :
    (LRTile.ofDense kernels cutoff T opts).rows = T.rows ∧
      (LRTile.ofDense kernels cutoff T opts).cols = T.cols := by
  unfold LRTile.ofDense
  by_cases h1 : opts.low_rank_algorithm = LowRankAlgorithm.RRQR
  · rw [if_pos h1]
    exact hlr h1
  · have h2 : opts.low_rank_algorithm = LowRankAlgorithm.ACA := by
      cases h : opts.low_rank_algorithm
      · exact absurd h h1
      · rfl
    rw [if_neg h1, if_pos h2]
    exact haca h2

/-- Witness for C5: the 2 x 3 block `exampleDense` compressed by `ACA` with
`exampleKernels`. -/
theorem ofDense_keeps_dimensions_witness :
    (LRTile.ofDense exampleKernels 0 exampleDense ⟨LowRankAlgorithm.ACA, (), (), 10⟩).rows
        = exampleDense.rows ∧
      (LRTile.ofDense exampleKernels 0 exampleDense ⟨LowRankAlgorithm.ACA, (), (), 10⟩).cols
        = exampleDense.cols :=
  ofDense_keeps_dimensions exampleKernels 0 exampleDense ⟨LowRankAlgorithm.ACA, (), (), 10⟩
    (fun _ => ⟨rfl, rfl⟩) (fun _ => ⟨rfl, rfl⟩)

theorem dense_get {α : Type} [CommRing α] [Star α] (t : LRTile α) (A : DenseMatrix α)
    (cutoff : Int) (i j : Nat) (hA : A.wellFormed) (hi : i < A.rows) (hj : j < A.cols) :
    (t.dense A cutoff).get i j
      = Finset.sum (Finset.range t.rank) fun k => t.U_.get i k * t.V_.get k j := by
  unfold LRTile.dense gemm
  rw [get_overwrite A _ i j hA hi hj, sumUpTo_eq_sum]
  simp only [DenseMatrix.opGet, one_mul, zero_mul, add_zero]
  rfl

/-- C6: for a low-rank tile with `U` of size `m x r` and `V` of size `r x n` and an
`m x n` output matrix `A` (leading dimension at least `m`), `dense(A)` keeps the shape of
`A` and leaves its `m x n` entries equal to the matrix product `U*V`; the result is the
same for any other `m x n` output matrix `B`, so the previous contents are not
accumulated. -/
theorem dense_is_product_of_factors {α : Type} [CommRing α] [Star α] (t : LRTile α)
    (A : DenseMatrix α) (cutoff : Int) (hA : A.wellFormed)
    (hrows : A.rows = t.rows) (hcols : A.cols = t.cols) (_hV : t.V_.rows = t.rank) :
    (t.dense A cutoff).rows = t.rows ∧ (t.dense A cutoff).cols = t.cols ∧
      (t.dense A cutoff).ld = A.ld ∧
      (t.dense A cutoff).toMatrix t.rows t.cols
        = t.U_.toMatrix t.rows t.rank * t.V_.toMatrix t.rank t.cols ∧
      ∀ B : DenseMatrix α, B.wellFormed → B.rows = t.rows → B.cols = t.cols →
        (t.dense B cutoff).toMatrix t.rows t.cols = (t.dense A cutoff).toMatrix t.rows t.cols := by
  have hprod : ∀ B : DenseMatrix α, B.wellFormed → B.rows = t.rows → B.cols = t.cols →
      (t.dense B cutoff).toMatrix t.rows t.cols
        = t.U_.toMatrix t.rows t.rank * t.V_.toMatrix t.rank t.cols := by
    intro B hB hBr hBc
    funext i j
    have hi : (i : Nat) < B.rows := by rw [hBr]; exact i.isLt
    have hj : (j : Nat) < B.cols := by rw [hBc]; exact j.isLt
    show (t.dense B cutoff).get i j = _
    rw [dense_get t B cutoff i j hB hi hj, Matrix.mul_apply,
      Finset.sum_range fun k => t.U_.get i k * t.V_.get k j]
    rfl
  refine ⟨hrows, hcols, rfl, hprod A hA hrows hcols, ?_⟩
  intro B hB hBr hBc
  rw [hprod B hB hBr hBc, hprod A hA hrows hcols]

/-- Witness for C6: `exampleTile` materialized into `exampleOut`. -/
theorem dense_is_product_of_factors_witness :
    (exampleTile.dense exampleOut 0).rows = exampleTile.rows ∧
      (exampleTile.dense exampleOut 0).cols = exampleTile.cols ∧
      (exampleTile.dense exampleOut 0).ld = exampleOut.ld ∧
      (exampleTile.dense exampleOut 0).toMatrix exampleTile.rows exampleTile.cols
        = exampleTile.U_.toMatrix exampleTile.rows exampleTile.rank
          * exampleTile.V_.toMatrix exampleTile.rank exampleTile.cols ∧
      ∀ B : DenseMatrix Int, B.wellFormed → B.rows = exampleTile.rows →
        B.cols = exampleTile.cols →
        (exampleTile.dense B 0).toMatrix exampleTile.rows exampleTile.cols
          = (exampleTile.dense exampleOut 0).toMatrix exampleTile.rows exampleTile.cols :=
  dense_is_product_of_factors exampleTile exampleOut 0 (by decide) rfl rfl rfl

/-- C7: for a low-rank tile with factors `U` and `V` of rank `r`, `operator()(i,j)`
returns the unconjugated sum over `k < r` of `U(i,k)*V(k,j)` (the element in the words
of the specification), which is entry `(i,j)` of the matrix written by `dense()` into any
output matrix `A` with `i < A.rows()`, `j < A.cols()`; for `r = 0` the value is 0.  The
scalars are any commutative ring with a conjugation, real or complex. -/
theorem elem_is_inner_product {α : Type} [CommRing α] [Star α] (t : LRTile α)
    (A : DenseMatrix α) (cutoff : Int) (i j : Nat)
    (hA : A.wellFormed) (hi : i < A.rows) (hj : j < A.cols) :
    t.elem i j = t.elemSpec i j ∧
      t.elem i j = (Finset.sum (Finset.range t.rank) fun k => t.U_.get i k * t.V_.get k j) ∧
      (t.dense A cutoff).get i j = t.elem i j ∧
      (t.rank = 0 → t.elem i j = 0) := by
  have h1 : t.elem i j
      = Finset.sum (Finset.range t.rank) fun k => t.U_.get i k * t.V_.get k j := by
    unfold LRTile.elem blas.dotu
    rw [sumUpTo_eq_sum]
    refine Finset.sum_congr rfl fun k _ => ?_
    simp only [DenseMatrix.from_ptr, DenseMatrix.get, DenseMatrix.ptr, DenseMatrix.ld]
    congr 2
    all_goals ring
  refine ⟨h1, h1, ?_, ?_⟩
  · rw [dense_get t A cutoff i j hA hi hj, h1]
  · intro hr
    rw [h1, hr]
    simp

/-- Witness for C7: element (2,1) of `exampleTile`. -/
theorem elem_is_inner_product_witness :
    exampleTile.elem 2 1 = exampleTile.elemSpec 2 1 ∧
      exampleTile.elem 2 1 = (Finset.sum (Finset.range exampleTile.rank) fun k =>
        exampleTile.U_.get 2 k * exampleTile.V_.get k 1) ∧
      (exampleTile.dense exampleOut 0).get 2 1 = exampleTile.elem 2 1 ∧
      (exampleTile.rank = 0 → exampleTile.elem 2 1 = 0) :=
  elem_is_inner_product exampleTile exampleOut 0 2 1 (by decide) (by decide) (by decide)

/-- C8: for a low-rank tile with `U` of size `m x r` and `V` of size `r x n`, a dense
`p x q` block reporting `p*q`, and `r*(m+n)` a `std::size_t` value: `nonzeros()` and
`memory()` are `r*(m+n)`, and `maximum_rank() = rank() = r`. -/
theorem memory_nonzeros_rank {α : Type} (t : LRTile α) (m n r : Nat)
    (hUr : t.U_.rows = m) (hUc : t.U_.cols = r) (hVr : t.V_.rows = r) (hVc : t.V_.cols = n)
    (hfit : r * (m + n) < SIZE_T_MOD) :
    t.nonzeros = r * (m + n) ∧ t.memory = r * (m + n) ∧
      t.maximum_rank = r ∧ t.rank = r ∧ t.maximum_rank = t.rank := by
  have hsum : (m * r % SIZE_T_MOD + r * n % SIZE_T_MOD) % SIZE_T_MOD = r * (m + n) := by
    have e : r * (m + n) = m * r + r * n := by ring
    rw [e] at hfit ⊢
    rw [Nat.mod_eq_of_lt (a := m * r) (by omega), Nat.mod_eq_of_lt (a := r * n) (by omega)]
    exact Nat.mod_eq_of_lt hfit
  refine ⟨?_, ?_, hUc, hUc, rfl⟩
  · unfold LRTile.nonzeros DenseMatrix.nonzeros
    rw [hUr, hUc, hVr, hVc]
    exact hsum
  · unfold LRTile.memory DenseMatrix.memory
    rw [hUr, hUc, hVr, hVc]
    exact hsum

/-- Witness for C8: `exampleTile`, with `m = 3`, `n = 2`, `r = 2`. -/
theorem memory_nonzeros_rank_witness :
    exampleTile.nonzeros = 2 * (3 + 2) ∧ exampleTile.memory = 2 * (3 + 2) ∧
      exampleTile.maximum_rank = 2 ∧ exampleTile.rank = 2 ∧
      exampleTile.maximum_rank = exampleTile.rank :=
  memory_nonzeros_rank exampleTile 3 2 2 rfl rfl rfl rfl (by decide)

/-- C9: for a low-rank tile `(U, V)` with `m` rows, a pivot vector valid for `m` rows
and `fwd` true or false, `laswp(piv, fwd)` leaves `V` unchanged, and materializing the
tile after the call gives the row interchange `laswp(piv, fwd)` of the materialized tile
before the call: `dense(laswp(tile)) = laswp(dense(tile))`. -/
theorem laswp_commutes_with_dense {α : Type} [CommRing α] [Star α] (t : LRTile α)
    (A : DenseMatrix α) (cutoff : Int) (piv : List Int) (fwd : Bool)
    (hU : t.U_.wellFormed) (hA : A.wellFormed) (hrows : A.rows = t.rows)
    (hp : DenseMatrix.validPiv t.rows piv) :
    (t.laswp piv fwd).V = t.V ∧
      (t.laswp piv fwd).dense A cutoff = (t.dense A cutoff).laswp piv fwd := by
  refine ⟨rfl, ?_⟩
  have hin := pivSwaps_in_range t.rows piv hp
  have hdr : (t.dense A cutoff).rows = t.U_.rows := hrows
  unfold LRTile.laswp LRTile.dense DenseMatrix.laswp at *
  rw [hdr]
  cases fwd with
  | true =>
    simp only [if_true]
    exact gemm_foldl_rowSwap _ t.U_ t.V_ A cutoff hU hA hrows hin
  | false =>
    simp only [Bool.false_eq_true, if_false]
    exact gemm_foldl_rowSwap _ t.U_ t.V_ A cutoff hU hA hrows
      (fun s hs => hin s (List.mem_reverse.1 hs))

/-- Witness for C9: `exampleTile` (3 rows) with the pivot vector `[3, 3, 3]`, forward. -/
theorem laswp_commutes_with_dense_witness :
    (exampleTile.laswp [3, 3, 3] true).V = exampleTile.V ∧
      (exampleTile.laswp [3, 3, 3] true).dense exampleOut 0
        = (exampleTile.dense exampleOut 0).laswp [3, 3, 3] true :=
  laswp_commutes_with_dense exampleTile exampleOut 0 [3, 3, 3] true (by decide) (by decide)
    rfl (by decide)

/-- C10: for a low-rank tile with `m` rows and a pivot vector valid for `m` rows,
`laswp(piv, fwd)` followed by `laswp(piv, !fwd)` restores the tile: `U` and `V` are equal
to their values before the two calls, for `fwd` true and for `fwd` false. -/
theorem laswp_then_reverse_restores {α : Type} (t : LRTile α) (piv : List Int) (fwd : Bool)
    (hU : t.U_.wellFormed) (hp : DenseMatrix.validPiv t.rows piv) :
    ((t.laswp piv fwd).laswp piv (!fwd)).U = t.U ∧
      ((t.laswp piv fwd).laswp piv (!fwd)).V = t.V ∧
      (t.laswp piv fwd).laswp piv (!fwd) = t := by
  have h : (t.U_.laswp piv fwd).laswp piv (!fwd) = t.U_ := laswp_laswp t.U_ piv fwd hU hp
  refine ⟨h, rfl, ?_⟩
  show LRTile.mk ((t.U_.laswp piv fwd).laswp piv (!fwd)) t.V_ = t
  rw [h]

/-- Witness for C10: `exampleTile` with the pivot vector `[2, 3, 3]`, backward first. -/
theorem laswp_then_reverse_restores_witness :
    ((exampleTile.laswp [2, 3, 3] false).laswp [2, 3, 3] (!false)).U = exampleTile.U ∧
      ((exampleTile.laswp [2, 3, 3] false).laswp [2, 3, 3] (!false)).V = exampleTile.V ∧
      (exampleTile.laswp [2, 3, 3] false).laswp [2, 3, 3] (!false) = exampleTile :=
  laswp_then_reverse_restores exampleTile [2, 3, 3] false (by decide) (by decide)

/-! ## Theorems on the bounds of the local tile store -/

theorem local_index_lt_count (N p n I : Nat) (hN : 0 < N) (hI : I < n) (hloc : I % N = p) :
    I / N < ((Finset.range n).filter fun x => x % N = p).card := by
  have hdecomp : I % N + N * (I / N) = I := Nat.mod_add_div I N
  have hp : p < N := by rw [← hloc]; exact Nat.mod_lt _ hN
  have hle : (Finset.range (I / N + 1)).card
      ≤ ((Finset.range n).filter fun x => x % N = p).card := by
    refine Finset.card_le_card_of_injOn (fun q => p + N * q) ?_ ?_
    · intro q hq
      have hq1 : q < I / N + 1 := Finset.mem_range.1 hq
      have hmul : N * q ≤ N * (I / N) := Nat.mul_le_mul_left N (by omega)
      have hlt : p + N * q < n := by omega
      refine Finset.mem_filter.2 ⟨Finset.mem_range.2 hlt, ?_⟩
      show (p + N * q) % N = p
      rw [Nat.add_mul_mod_self_left]
      exact Nat.mod_eq_of_lt hp
    · intro a _ b _ hab
      have h2 : N * a = N * b := Nat.add_left_cancel hab
      exact Nat.eq_of_mul_eq_mul_left hN h2
  rw [Finset.card_range] at hle
  omega

theorem slot_lt_of_local_coords (i j lbr lbc : Nat) (hi : i < lbr) (hj : j < lbc) :
    i + j * lbr < lbr * lbc := by
  have h1 : (j + 1) * lbr ≤ lbc * lbr := Nat.mul_le_mul_right lbr (by omega)
  have h2 : (j + 1) * lbr = j * lbr + lbr := by ring
  have h3 : lbc * lbr = lbr * lbc := Nat.mul_comm _ _
  omega

theorem lindex_le {τ : Type} (m : BLRMatrixMPI τ) (i j : Nat) :
    m.lindex i j ≤ i + j * m.rowblockslocal := by
  unfold BLRMatrixMPI.lindex
  have h1 : (j * m.rowblockslocal) % SIZE_T_MOD ≤ j * m.rowblockslocal := Nat.mod_le _ _
  have h2 := Nat.mod_le (i + (j * m.rowblockslocal) % SIZE_T_MOD) SIZE_T_MOD
  omega

/-- C19: on a grid with `Pr, Pc > 0`, `prow < Pr`, `pcol < Pc`, for a matrix whose local
tile array has `lbrows*lbcols` slots, `lbrows` (`lbcols`) being the number of `I < brows`
with `I mod Pr = prow` (of `J < bcols` with `J mod Pc = pcol`): for every locally owned
tile `(I,J)` with `I < brows`, `J < bcols`, the local coordinates pass the assertion
`i < rowblockslocal() && j < colblockslocal()` of `ltile`, the index
`tilerg2l(I) + tilecg2l(J)*lbrows` is below `lbrows*lbcols` (also as the `size_t` value
the code computes), and `block(I,J)`, `tile(I,J)` return a slot of the array. -/
theorem local_tile_access_in_bounds {τ : Type} (m : BLRMatrixMPI τ) (Pr Pc prow pcol I J : Nat)
    (hPr : 0 < Pr) (hPc : 0 < Pc)
    (hnr : m.grid_.nprows = Pr) (hnc : m.grid_.npcols = Pc)
    (hPrmax : (Pr : Int) ≤ INT_MAX) (hPcmax : (Pc : Int) ≤ INT_MAX)
    (hprow : m.grid_.prow = prow) (hpcol : m.grid_.pcol = pcol)
    (_hprowlt : prow < Pr) (_hpcollt : pcol < Pc)
    (hlbr : m.rowblockslocal = ((Finset.range m.rowblocks).filter fun x => x % Pr = prow).card)
    (hlbc : m.colblockslocal = ((Finset.range m.colblocks).filter fun x => x % Pc = pcol).card)
    (hsize : m.blocks_.length = m.rowblockslocal * m.colblockslocal)
    (hI : I < m.rowblocks) (hJ : J < m.colblocks)
    (hrow : I % Pr = prow) (hcol : J % Pc = pcol) :
    m.tilerg2l I = some (I / Pr) ∧ m.tilecg2l J = some (J / Pc) ∧
      (I / Pr < m.rowblockslocal ∧ J / Pc < m.colblockslocal) ∧
      I / Pr + (J / Pc) * m.rowblockslocal < m.rowblockslocal * m.colblockslocal ∧
      m.lindex (I / Pr) (J / Pc) < m.blocks_.length ∧
      (∃ b, m.block I J = some b) ∧ (∃ b, m.tile I J = some b) := by
  have hi : I / Pr < m.rowblockslocal := by
    rw [hlbr]; exact local_index_lt_count Pr prow _ I hPr hI hrow
  have hj : J / Pc < m.colblockslocal := by
    rw [hlbc]; exact local_index_lt_count Pc pcol _ J hPc hJ hcol
  have hslot := slot_lt_of_local_coords _ _ _ _ hi hj
  have hidx : m.lindex (I / Pr) (J / Pc) < m.blocks_.length := by
    rw [hsize]; exact Nat.lt_of_le_of_lt (lindex_le m _ _) hslot
  have hr : m.tilerg2l I = some (I / Pr) := by
    unfold BLRMatrixMPI.tilerg2l
    rw [hnr, hprow, ← hrow]
    exact tileg2l_local Pr _ I hPr hPrmax rfl
  have hc : m.tilecg2l J = some (J / Pc) := by
    unfold BLRMatrixMPI.tilecg2l
    rw [hnc, hpcol, ← hcol]
    exact tileg2l_local Pc _ J hPc hPcmax rfl
  refine ⟨hr, hc, ⟨hi, hj⟩, hslot, hidx, ?_, ?_⟩
  · refine ⟨m.blocks_.get ⟨_, hidx⟩, ?_⟩
    unfold BLRMatrixMPI.block
    rw [if_pos ⟨hI, hJ⟩]
    simp only [hr, hc, Option.some_bind]
    exact List.getElem?_eq_getElem hidx
  · refine ⟨m.blocks_.get ⟨_, hidx⟩, ?_⟩
    unfold BLRMatrixMPI.tile BLRMatrixMPI.ltile
    simp only [hr, hc, Option.some_bind]
    rw [if_pos ⟨hi, hj⟩]
    exact List.getElem?_eq_getElem hidx

/-- Witness for C19: tile (1,4) of `exampleMatrix` on the 2 x 3 grid at position (1,1). -/
theorem local_tile_access_in_bounds_witness :
    exampleMatrix.tilerg2l 1 = some (1 / 2) ∧ exampleMatrix.tilecg2l 4 = some (4 / 3) ∧
      (1 / 2 < exampleMatrix.rowblockslocal ∧ 4 / 3 < exampleMatrix.colblockslocal) ∧
      1 / 2 + (4 / 3) * exampleMatrix.rowblockslocal
        < exampleMatrix.rowblockslocal * exampleMatrix.colblockslocal ∧
      exampleMatrix.lindex (1 / 2) (4 / 3) < exampleMatrix.blocks_.length ∧
      (∃ b, exampleMatrix.block 1 4 = some b) ∧ (∃ b, exampleMatrix.tile 1 4 = some b) :=
  local_tile_access_in_bounds exampleMatrix 2 3 1 1 1 4 (by decide) (by decide) rfl rfl
    (by decide) (by decide) rfl rfl (by decide) (by decide) (by decide) (by decide) rfl
    (by decide) (by decide) rfl rfl

theorem slot_injective (i j i2 j2 lbr : Nat) (hi : i < lbr) (hi2 : i2 < lbr)
    (h : i + j * lbr = i2 + j2 * lbr) : i = i2 ∧ j = j2 := by
  have hm : (i + j * lbr) % lbr = (i2 + j2 * lbr) % lbr := by rw [h]
  rw [Nat.add_mul_mod_self_right, Nat.add_mul_mod_self_right, Nat.mod_eq_of_lt hi,
    Nat.mod_eq_of_lt hi2] at hm
  subst hm
  have h2 : j * lbr = j2 * lbr := Nat.add_left_cancel h
  exact ⟨rfl, Nat.eq_of_mul_eq_mul_right (by omega) h2⟩

/-- C20: with `lbrows` and `lbcols` the numbers of local tile rows and columns and a
local tile array of `lbrows*lbcols` slots (a `std::size_t` number), two different locally
owned tiles `(I,J)` and `(I2,J2)` with `I, I2 < brows` and `J, J2 < bcols` are stored in
different slots: `tilerg2l(I) + tilecg2l(J)*lbrows` differs from
`tilerg2l(I2) + tilecg2l(J2)*lbrows`, also as the `size_t` subscripts the code computes. -/
theorem local_tiles_do_not_alias {τ : Type} (m : BLRMatrixMPI τ)
    (Pr Pc prow pcol I J I2 J2 : Nat) (hPr : 0 < Pr) (hPc : 0 < Pc)
    (hnr : m.grid_.nprows = Pr) (hnc : m.grid_.npcols = Pc)
    (hPrmax : (Pr : Int) ≤ INT_MAX) (hPcmax : (Pc : Int) ≤ INT_MAX)
    (hprow : m.grid_.prow = prow) (hpcol : m.grid_.pcol = pcol)
    (hlbr : m.rowblockslocal = ((Finset.range m.rowblocks).filter fun x => x % Pr = prow).card)
    (hlbc : m.colblockslocal = ((Finset.range m.colblocks).filter fun x => x % Pc = pcol).card)
    (hsize : m.blocks_.length = m.rowblockslocal * m.colblockslocal)
    (hvec : m.blocks_.length < SIZE_T_MOD)
    (hI : I < m.rowblocks) (hJ : J < m.colblocks)
    (hI2 : I2 < m.rowblocks) (hJ2 : J2 < m.colblocks)
    (hrow : I % Pr = prow) (hcol : J % Pc = pcol)
    (hrow2 : I2 % Pr = prow) (hcol2 : J2 % Pc = pcol)
    (hne : (I, J) ≠ (I2, J2)) :
    m.tilerg2l I = some (I / Pr) ∧ m.tilecg2l J = some (J / Pc) ∧
      m.tilerg2l I2 = some (I2 / Pr) ∧ m.tilecg2l J2 = some (J2 / Pc) ∧
      I / Pr + (J / Pc) * m.rowblockslocal ≠ I2 / Pr + (J2 / Pc) * m.rowblockslocal ∧
      m.lindex (I / Pr) (J / Pc) ≠ m.lindex (I2 / Pr) (J2 / Pc) := by
  have hi : I / Pr < m.rowblockslocal := by
    rw [hlbr]; exact local_index_lt_count Pr prow _ I hPr hI hrow
  have hj : J / Pc < m.colblockslocal := by
    rw [hlbc]; exact local_index_lt_count Pc pcol _ J hPc hJ hcol
  have hi2 : I2 / Pr < m.rowblockslocal := by
    rw [hlbr]; exact local_index_lt_count Pr prow _ I2 hPr hI2 hrow2
  have hj2 : J2 / Pc < m.colblockslocal := by
    rw [hlbc]; exact local_index_lt_count Pc pcol _ J2 hPc hJ2 hcol2
  have hpure : I / Pr + (J / Pc) * m.rowblockslocal
      ≠ I2 / Pr + (J2 / Pc) * m.rowblockslocal := by
    intro h
    obtain ⟨e1, e2⟩ := slot_injective _ _ _ _ _ hi hi2 h
    apply hne
    have dI := Nat.mod_add_div I Pr
    have dI2 := Nat.mod_add_div I2 Pr
    have dJ := Nat.mod_add_div J Pc
    have dJ2 := Nat.mod_add_div J2 Pc
    rw [hrow, e1] at dI
    rw [hrow2] at dI2
    rw [hcol, e2] at dJ
    rw [hcol2] at dJ2
    rw [Prod.mk.injEq]
    exact ⟨by omega, by omega⟩
  have hlin : ∀ i j, i < m.rowblockslocal → j < m.colblockslocal →
      m.lindex i j = i + j * m.rowblockslocal := by
    intro i j hi hj
    have hs := slot_lt_of_local_coords _ _ _ _ hi hj
    rw [← hsize] at hs
    unfold BLRMatrixMPI.lindex
    rw [Nat.mod_eq_of_lt (a := j * m.rowblockslocal) (by omega)]
    exact Nat.mod_eq_of_lt (by omega)
  have hr : ∀ K, K % Pr = prow → m.tilerg2l K = some (K / Pr) := by
    intro K hK
    unfold BLRMatrixMPI.tilerg2l
    rw [hnr, hprow, ← hK]
    exact tileg2l_local Pr _ K hPr hPrmax rfl
  have hc : ∀ K, K % Pc = pcol → m.tilecg2l K = some (K / Pc) := by
    intro K hK
    unfold BLRMatrixMPI.tilecg2l
    rw [hnc, hpcol, ← hK]
    exact tileg2l_local Pc _ K hPc hPcmax rfl
  refine ⟨hr I hrow, hc J hcol, hr I2 hrow2, hc J2 hcol2, hpure, ?_⟩
  rw [hlin _ _ hi hj, hlin _ _ hi2 hj2]
  exact hpure

/-- Witness for C20: tiles (1,1) and (1,4) of `exampleMatrix`. -/
theorem local_tiles_do_not_alias_witness :
    exampleMatrix.tilerg2l 1 = some (1 / 2) ∧ exampleMatrix.tilecg2l 1 = some (1 / 3) ∧
      exampleMatrix.tilerg2l 1 = some (1 / 2) ∧ exampleMatrix.tilecg2l 4 = some (4 / 3) ∧
      1 / 2 + (1 / 3) * exampleMatrix.rowblockslocal
        ≠ 1 / 2 + (4 / 3) * exampleMatrix.rowblockslocal ∧
      exampleMatrix.lindex (1 / 2) (1 / 3) ≠ exampleMatrix.lindex (1 / 2) (4 / 3) :=
  local_tiles_do_not_alias exampleMatrix 2 3 1 1 1 1 1 4 (by decide) (by decide) rfl rfl
    (by decide) (by decide) rfl rfl (by decide) (by decide) rfl (by decide)
    (by decide) (by decide) (by decide) (by decide) rfl rfl rfl rfl (by decide)

/-! ## Theorems on the triangular solve of a low-rank tile -/

theorem toMatrix_overwrite_entriesOf {α : Type} [Zero α] (b : DenseMatrix α)
    (M : Matrix (Fin b.rows) (Fin b.cols) α) (hb : b.wellFormed) :
    (b.overwrite (entriesOf M)).toMatrix b.rows b.cols = M := by
  funext i j
  show (b.overwrite (entriesOf M)).get i j = M i j
  rw [get_overwrite b _ i j hb i.isLt j.isLt]
  unfold entriesOf
  rw [dif_pos ⟨i.isLt, j.isLt⟩]

theorem matInv_eq_inv {α : Type} [Field α] {n : Nat} (M : Matrix (Fin n) (Fin n) α) :
    matInv M = M⁻¹ := by
  unfold matInv
  rw [Matrix.inv_def, Ring.inverse_eq_inv']

theorem trsm_L_toMatrix {α : Type} [Field α] [Star α] (ul : UpLo) (ta : Trans) (d : Diag)
    (alpha : α) (a b : DenseMatrix α) (c : Int) (m r : Nat) (hb : b.wellFormed)
    (hm : b.rows = m) (hr : b.cols = r) :
    (trsm Side.L ul ta d alpha a b c).toMatrix m r
      = alpha • ((opMatrix ta (triMatrix ul d a m))⁻¹ * b.toMatrix m r) := by
  subst hm
  subst hr
  rw [← matInv_eq_inv]
  exact toMatrix_overwrite_entriesOf b _ hb

theorem trsm_R_toMatrix {α : Type} [Field α] [Star α] (ul : UpLo) (ta : Trans) (d : Diag)
    (alpha : α) (a b : DenseMatrix α) (c : Int) (r n : Nat) (hb : b.wellFormed)
    (hr : b.rows = r) (hn : b.cols = n) :
    (trsm Side.R ul ta d alpha a b c).toMatrix r n
      = alpha • (b.toMatrix r n * (opMatrix ta (triMatrix ul d a n))⁻¹) := by
  subst hr
  subst hn
  rw [← matInv_eq_inv]
  exact toMatrix_overwrite_entriesOf b _ hb

theorem dense_toMatrix {α : Type} [CommRing α] [Star α] (t : LRTile α) (A : DenseMatrix α)
    (cutoff : Int) (m n : Nat) (hA : A.wellFormed) (hm : A.rows = m) (hn : A.cols = n) :
    (t.dense A cutoff).toMatrix m n = t.U_.toMatrix m t.rank * t.V_.toMatrix t.rank n := by
  funext i j
  have hi : (i : Nat) < A.rows := by rw [hm]; exact i.isLt
  have hj : (j : Nat) < A.cols := by rw [hn]; exact j.isLt
  show (t.dense A cutoff).get i j = _
  rw [dense_get t A cutoff i j hA hi hj, Matrix.mul_apply,
    Finset.sum_range fun k => t.U_.get i k * t.V_.get k j]
  rfl

theorem trsm_b_L {α : Type} [Field α] [Star α] (t : LRTile α) (cutoff : Int) (ul : UpLo)
    (ta : Trans) (d : Diag) (alpha : α) (a : DenseMatrix α) :
    t.trsm_b cutoff Side.L ul ta d alpha a
      = ⟨trsm Side.L ul ta d alpha a t.U_ cutoff, t.V_⟩ := by
  unfold LRTile.trsm_b
  rw [if_pos rfl]

theorem trsm_b_R {α : Type} [Field α] [Star α] (t : LRTile α) (cutoff : Int) (ul : UpLo)
    (ta : Trans) (d : Diag) (alpha : α) (a : DenseMatrix α) :
    t.trsm_b cutoff Side.R ul ta d alpha a
      = ⟨t.U_, trsm Side.R ul ta d alpha a t.V_ cutoff⟩ := by
  unfold LRTile.trsm_b
  rw [if_neg (by decide)]

/-- C11: for a low-rank tile with `U` of size `m x r` and `V` of size `r x n`,
materialization `T = U*V`, and triangular matrices `aL` (order `m`) and `aR` (order `n`),
read per `uplo` and `diag`, with `op(aL)`, `op(aR)` invertible: after
`trsm_b(Side::L, uplo, trans, diag, alpha, aL)` the materialized tile is
`alpha * op(aL)^-1 * T`, and after `trsm_b(Side::R, uplo, trans, diag, alpha, aR)` it is
`alpha * T * op(aR)^-1`; these are the solutions `X` of `op(aL) * X = alpha * T` and of
`X * op(aR) = alpha * T`. -/
theorem trsm_b_materialized {α : Type} [Field α] [Star α] (t : LRTile α) (cutoff : Int)
    (ul : UpLo) (ta : Trans) (d : Diag) (alpha : α) (aL aR Aout : DenseMatrix α)
    (hU : t.U_.wellFormed) (hV : t.V_.wellFormed) (hVr : t.V_.rows = t.rank)
    (hA : Aout.wellFormed) (hrows : Aout.rows = t.rows) (hcols : Aout.cols = t.cols)
    (hL : IsUnit (opMatrix ta (triMatrix ul d aL t.rows)).det)
    (hR : IsUnit (opMatrix ta (triMatrix ul d aR t.cols)).det) :
    (((t.trsm_b cutoff Side.L ul ta d alpha aL).dense Aout cutoff).toMatrix t.rows t.cols
        = alpha • ((opMatrix ta (triMatrix ul d aL t.rows))⁻¹
            * (t.dense Aout cutoff).toMatrix t.rows t.cols)) ∧
      (((t.trsm_b cutoff Side.R ul ta d alpha aR).dense Aout cutoff).toMatrix t.rows t.cols
        = alpha • ((t.dense Aout cutoff).toMatrix t.rows t.cols
            * (opMatrix ta (triMatrix ul d aR t.cols))⁻¹)) ∧
      (opMatrix ta (triMatrix ul d aL t.rows)
          * ((t.trsm_b cutoff Side.L ul ta d alpha aL).dense Aout cutoff).toMatrix t.rows t.cols
        = alpha • (t.dense Aout cutoff).toMatrix t.rows t.cols) ∧
      (((t.trsm_b cutoff Side.R ul ta d alpha aR).dense Aout cutoff).toMatrix t.rows t.cols
          * opMatrix ta (triMatrix ul d aR t.cols)
        = alpha • (t.dense Aout cutoff).toMatrix t.rows t.cols) := by
  have hT := dense_toMatrix t Aout cutoff t.rows t.cols hA hrows hcols
  have hTL : ((t.trsm_b cutoff Side.L ul ta d alpha aL).dense Aout cutoff).toMatrix
      t.rows t.cols = alpha • ((opMatrix ta (triMatrix ul d aL t.rows))⁻¹
        * (t.dense Aout cutoff).toMatrix t.rows t.cols) := by
    rw [trsm_b_L, hT]
    have h1 := dense_toMatrix ⟨trsm Side.L ul ta d alpha aL t.U_ cutoff, t.V_⟩ Aout cutoff
      t.rows t.cols hA hrows hcols
    have h2 := trsm_L_toMatrix ul ta d alpha aL t.U_ cutoff t.rows t.rank hU rfl rfl
    rw [h1]
    show (trsm Side.L ul ta d alpha aL t.U_ cutoff).toMatrix t.rows t.rank
      * t.V_.toMatrix t.rank t.cols = _
    rw [h2, Matrix.smul_mul, Matrix.mul_assoc]
  have hTR : ((t.trsm_b cutoff Side.R ul ta d alpha aR).dense Aout cutoff).toMatrix
      t.rows t.cols = alpha • ((t.dense Aout cutoff).toMatrix t.rows t.cols
        * (opMatrix ta (triMatrix ul d aR t.cols))⁻¹) := by
    rw [trsm_b_R, hT]
    have h1 := dense_toMatrix ⟨t.U_, trsm Side.R ul ta d alpha aR t.V_ cutoff⟩ Aout cutoff
      t.rows t.cols hA hrows hcols
    have h2 := trsm_R_toMatrix ul ta d alpha aR t.V_ cutoff t.rank t.cols hV hVr rfl
    rw [h1]
    show t.U_.toMatrix t.rows t.rank
      * (trsm Side.R ul ta d alpha aR t.V_ cutoff).toMatrix t.rank t.cols = _
    rw [h2, Matrix.mul_smul, Matrix.mul_assoc]
  refine ⟨hTL, hTR, ?_, ?_⟩
  · rw [hTL, Matrix.mul_smul, ← Matrix.mul_assoc, Matrix.mul_nonsing_inv _ hL, Matrix.one_mul]
  · rw [hTR, Matrix.smul_mul, Matrix.mul_assoc, Matrix.nonsing_inv_mul _ hR, Matrix.mul_one]

theorem exampleTriQ_isUnit :
    IsUnit (opMatrix Trans.N (triMatrix UpLo.U Diag.N exampleTriQ 2)).det := by
  rw [isUnit_iff_ne_zero, Matrix.det_fin_two]
  simp [opMatrix, triMatrix, exampleTriQ, DenseMatrix.get, DenseMatrix.ptr, DenseMatrix.ld]

/-- Witness for C11: `exampleTileQ` (2 x 2, rank 1) solved against the upper triangle
of `exampleTriQ` with `alpha = 2`, no transposition, non-unit diagonal. -/
theorem trsm_b_materialized_witness :
    (((exampleTileQ.trsm_b 0 Side.L UpLo.U Trans.N Diag.N 2 exampleTriQ).dense exampleOutQ
          0).toMatrix exampleTileQ.rows exampleTileQ.cols
        = (2 : ℚ) • ((opMatrix Trans.N (triMatrix UpLo.U Diag.N exampleTriQ exampleTileQ.rows))⁻¹
            * (exampleTileQ.dense exampleOutQ 0).toMatrix exampleTileQ.rows exampleTileQ.cols)) ∧
      (((exampleTileQ.trsm_b 0 Side.R UpLo.U Trans.N Diag.N 2 exampleTriQ).dense exampleOutQ
          0).toMatrix exampleTileQ.rows exampleTileQ.cols
        = (2 : ℚ) • ((exampleTileQ.dense exampleOutQ 0).toMatrix exampleTileQ.rows
            exampleTileQ.cols
            * (opMatrix Trans.N (triMatrix UpLo.U Diag.N exampleTriQ exampleTileQ.cols))⁻¹)) ∧
      (opMatrix Trans.N (triMatrix UpLo.U Diag.N exampleTriQ exampleTileQ.rows)
          * ((exampleTileQ.trsm_b 0 Side.L UpLo.U Trans.N Diag.N 2 exampleTriQ).dense
              exampleOutQ 0).toMatrix exampleTileQ.rows exampleTileQ.cols
        = (2 : ℚ) • (exampleTileQ.dense exampleOutQ 0).toMatrix exampleTileQ.rows
            exampleTileQ.cols) ∧
      (((exampleTileQ.trsm_b 0 Side.R UpLo.U Trans.N Diag.N 2 exampleTriQ).dense exampleOutQ
          0).toMatrix exampleTileQ.rows exampleTileQ.cols
          * opMatrix Trans.N (triMatrix UpLo.U Diag.N exampleTriQ exampleTileQ.cols)
        = (2 : ℚ) • (exampleTileQ.dense exampleOutQ 0).toMatrix exampleTileQ.rows
            exampleTileQ.cols) :=
  trsm_b_materialized exampleTileQ 0 UpLo.U Trans.N Diag.N 2 exampleTriQ exampleTriQ
    exampleOutQ (by decide) (by decide) rfl (by decide) rfl rfl exampleTriQ_isUnit
    exampleTriQ_isUnit

/-- C12: `trsm_b` with `Side::L` replaces `U` by the result of `trsm` on `U` and leaves
`V` unchanged; with `Side::R` it replaces `V` by the result of `trsm` on `V` and leaves
`U` unchanged, for all other arguments. -/
theorem trsm_b_modifies_one_factor {α : Type} [Field α] [Star α] (t : LRTile α)
    (cutoff : Int) (ul : UpLo) (ta : Trans) (d : Diag) (alpha : α) (a : DenseMatrix α) :
    ((t.trsm_b cutoff Side.L ul ta d alpha a).V = t.V ∧
        (t.trsm_b cutoff Side.L ul ta d alpha a).U = trsm Side.L ul ta d alpha a t.U cutoff) ∧
      ((t.trsm_b cutoff Side.R ul ta d alpha a).U = t.U ∧
        (t.trsm_b cutoff Side.R ul ta d alpha a).V = trsm Side.R ul ta d alpha a t.V cutoff) := by
  rw [trsm_b_L, trsm_b_R]
  exact ⟨⟨rfl, rfl⟩, ⟨rfl, rfl⟩⟩


/-! ## Lemmas on products of matrices given by their entries -/

theorem opGet_eq_opEntry {α : Type} [Star α] (ta : Trans) (A : DenseMatrix α) :
    DenseMatrix.opGet ta A = opEntry ta A.get := by
  funext i k
  cases ta <;> rfl

theorem alloc_wellFormed {α : Type} (m n : Nat) (fresh : Nat → α) :
    (DenseMatrix.alloc m n fresh).wellFormed := by
  show m ≤ max 1 m
  exact le_max_right 1 m

theorem gemm_get {α : Type} [CommRing α] [Star α] (ta tb : Trans) (alpha beta : α)
    (a b c : DenseMatrix α) (depth : Int) (i j : Nat) (hc : c.wellFormed)
    (hi : i < c.rows) (hj : j < c.cols) :
    (gemm ta tb alpha a b beta c depth).get i j
      = alpha * mulEntries (opCols ta a)
          (opEntry ta a.get) (opEntry tb b.get) i j + beta * c.get i j := by
  unfold gemm
  rw [get_overwrite c _ i j hc hi hj, sumUpTo_eq_sum, opGet_eq_opEntry, opGet_eq_opEntry]
  cases ta <;> rfl

theorem gemm_get_one_zero {α : Type} [CommRing α] [Star α] (ta tb : Trans)
    (a b c : DenseMatrix α) (depth : Int) (i j : Nat) (hc : c.wellFormed)
    (hi : i < c.rows) (hj : j < c.cols) :
    (gemm ta tb 1 a b 0 c depth).get i j
      = mulEntries (opCols ta a)
          (opEntry ta a.get) (opEntry tb b.get) i j := by
  rw [gemm_get ta tb 1 0 a b c depth i j hc hi hj, one_mul, zero_mul, add_zero]

theorem mulEntries_congr {α : Type} [CommRing α] (K : Nat) (f g f2 g2 : Nat → Nat → α)
    (i j : Nat) (h : ∀ l, l < K → f i l = f2 i l ∧ g l j = g2 l j) :
    mulEntries K f g i j = mulEntries K f2 g2 i j := by
  unfold mulEntries
  refine Finset.sum_congr rfl fun l hl => ?_
  have := h l (Finset.mem_range.1 hl)
  rw [this.1, this.2]

theorem mulEntries_assoc {α : Type} [CommRing α] (r K : Nat) (f g h : Nat → Nat → α)
    (i j : Nat) :
    mulEntries r f (mulEntries K g h) i j = mulEntries K (mulEntries r f g) h i j := by
  unfold mulEntries
  simp only [Finset.mul_sum, Finset.sum_mul]
  rw [Finset.sum_comm]
  refine Finset.sum_congr rfl fun l _ => Finset.sum_congr rfl fun q _ => ?_
  ring

theorem opEntry_mulEntries_N {α : Type} [CommRing α] [Star α] (r : Nat)
    (f g : Nat → Nat → α) (i l : Nat) :
    opEntry Trans.N (mulEntries r f g) i l
      = mulEntries r (opEntry Trans.N f) (opEntry Trans.N g) i l := rfl

theorem opEntry_mulEntries_T {α : Type} [CommRing α] [Star α] (r : Nat)
    (f g : Nat → Nat → α) (i l : Nat) :
    opEntry Trans.T (mulEntries r f g) i l
      = mulEntries r (opEntry Trans.T g) (opEntry Trans.T f) i l := by
  show mulEntries r f g l i = mulEntries r (fun a b => g b a) (fun a b => f b a) i l
  unfold mulEntries
  exact Finset.sum_congr rfl fun q _ => mul_comm _ _

theorem opEntry_mulEntries_C {α : Type} [CommRing α] [StarRing α] (r : Nat)
    (f g : Nat → Nat → α) (i l : Nat) :
    opEntry Trans.C (mulEntries r f g) i l
      = mulEntries r (opEntry Trans.C g) (opEntry Trans.C f) i l := by
  show star (mulEntries r f g l i)
    = mulEntries r (fun a b => star (g b a)) (fun a b => star (f b a)) i l
  unfold mulEntries
  rw [star_sum]
  exact Finset.sum_congr rfl fun q _ => by rw [star_mul']; exact mul_comm _ _

/-- The two products of `gemm_a`: `Y` times the temporary `X * b`. -/
theorem gemm_chain_left {α : Type} [CommRing α] [Star α] (ta tb : Trans) (alpha beta : α)
    (X Y b c tmp : DenseMatrix α) (depth : Int) (i j : Nat) (hc : c.wellFormed)
    (hi : i < c.rows) (hj : j < c.cols) (htmp : tmp.wellFormed)
    (hr : tmp.rows = (opCols ta Y))
    (hn : tmp.cols = c.cols) :
    (gemm ta Trans.N alpha Y (gemm ta tb 1 X b 0 tmp depth) beta c depth).get i j
      = alpha * mulEntries (opCols ta X)
          (mulEntries (opCols ta Y)
            (opEntry ta Y.get) (opEntry ta X.get))
          (opEntry tb b.get) i j + beta * c.get i j := by
  rw [gemm_get ta Trans.N alpha beta Y _ c depth i j hc hi hj,
    ← mulEntries_assoc _ _ (opEntry ta Y.get) (opEntry ta X.get) (opEntry tb b.get) i j]
  congr 2
  apply mulEntries_congr
  intro l hl
  exact ⟨rfl, gemm_get_one_zero ta tb X b tmp depth l j htmp (by rw [hr]; exact hl)
    (by rw [hn]; exact hj)⟩

/-- The two products of `gemm_b`: the temporary `a * X` times `Y`. -/
theorem gemm_chain_right {α : Type} [CommRing α] [Star α] (ta tb : Trans) (alpha beta : α)
    (a X Y c tmp : DenseMatrix α) (depth : Int) (i j : Nat) (hc : c.wellFormed)
    (hi : i < c.rows) (hj : j < c.cols) (htmp : tmp.wellFormed)
    (hm : tmp.rows = c.rows) :
    (gemm Trans.N tb alpha (gemm ta tb 1 a X 0 tmp depth) Y beta c depth).get i j
      = alpha * mulEntries (opCols ta a)
          (opEntry ta a.get)
          (mulEntries tmp.cols (opEntry tb X.get) (opEntry tb Y.get)) i j
        + beta * c.get i j := by
  rw [gemm_get Trans.N tb alpha beta _ Y c depth i j hc hi hj,
    mulEntries_assoc _ _ (opEntry ta a.get) (opEntry tb X.get) (opEntry tb Y.get) i j]
  congr 2
  apply mulEntries_congr
  intro l hl
  exact ⟨gemm_get_one_zero ta tb a X tmp depth i l htmp (by rw [hm]; exact hi) hl, rfl⟩

/-! ## Theorems on the products with a low-rank tile -/

theorem elemSpec_eq_mulEntries {α : Type} [CommRing α] (t : LRTile α) :
    t.elemSpec = mulEntries t.rank t.U_.get t.V_.get := rfl

theorem opEntry_elemSpec {α : Type} [CommRing α] [StarRing α] (ta : Trans) (t : LRTile α)
    (i l : Nat) :
    opEntry ta t.elemSpec i l
      = mulEntries t.rank (opEntry ta (if ta = Trans.N then t.U else t.V).get)
          (opEntry ta (if ta = Trans.N then t.V else t.U).get) i l := by
  rw [elemSpec_eq_mulEntries]
  cases ta
  · rfl
  · exact opEntry_mulEntries_T _ _ _ i l
  · exact opEntry_mulEntries_C _ _ _ i l

/-- C14: for a low-rank tile of rank `r` (`V` has `r` rows) with materialization
`T = U*V`, a dense matrix `b`, flags `ta`, `tb`, scalars `alpha`, `beta` and an output
matrix `c` (leading dimension at least its number of rows),
`gemm_a(ta, tb, alpha, b, beta, c, depth)` keeps the shape of `c` and leaves every entry
`c(i,j) = alpha * (op_ta(T) * op_tb(b))(i,j) + beta * c_old(i,j)`, the inner dimension
being the number of columns of `op_ta(T)`. -/
theorem gemm_a_dense_operand {α : Type} [CommRing α] [StarRing α] (t : LRTile α)
    (fresh : Nat → α) (ta tb : Trans) (alpha beta : α) (b c : DenseMatrix α) (depth : Int)
    (hVr : t.V_.rows = t.rank) (hc : c.wellFormed) :
    (t.gemm_a_DenseM fresh ta tb alpha b beta c depth).rows = c.rows ∧
      (t.gemm_a_DenseM fresh ta tb alpha b beta c depth).cols = c.cols ∧
      (t.gemm_a_DenseM fresh ta tb alpha b beta c depth).ld = c.ld ∧
      ∀ i j, i < c.rows → j < c.cols →
        (t.gemm_a_DenseM fresh ta tb alpha b beta c depth).get i j
          = alpha * mulEntries (if ta = Trans.N then t.cols else t.rows)
              (opEntry ta t.elemSpec) (opEntry tb b.get) i j + beta * c.get i j := by
  refine ⟨rfl, rfl, rfl, fun i j hi hj => ?_⟩
  have hr : (DenseMatrix.alloc t.rank c.cols fresh).rows
      = opCols ta (if ta = Trans.N then t.U else t.V) := by
    cases ta
    · rfl
    · exact hVr.symm
    · exact hVr.symm
  have hK : opCols ta (if ta = Trans.N then t.V else t.U)
      = if ta = Trans.N then t.cols else t.rows := by
    cases ta <;> rfl
  have hch := gemm_chain_left ta tb alpha beta (if ta = Trans.N then t.V else t.U)
    (if ta = Trans.N then t.U else t.V) b c (DenseMatrix.alloc t.rank c.cols fresh) depth
    i j hc hi hj (alloc_wellFormed _ _ _) hr rfl
  unfold LRTile.gemm_a_DenseM
  simp only []
  rw [hch, hK]
  congr 2
  apply mulEntries_congr
  intro l _
  refine ⟨?_, rfl⟩
  rw [opEntry_elemSpec ta t i l, ← hr]
  rfl

/-- Witness for C14: `exampleTile` (3 x 2) times the 2 x 3 matrix `exampleDense`,
accumulated into the 3 x 3 matrix `exampleSquare` with `alpha = 2`, `beta = 3`. -/
theorem gemm_a_dense_operand_witness :
    (exampleTile.gemm_a_DenseM (fun _ => 9) Trans.N Trans.N 2 exampleDense 3 exampleSquare
        0).rows = exampleSquare.rows ∧
      (exampleTile.gemm_a_DenseM (fun _ => 9) Trans.N Trans.N 2 exampleDense 3 exampleSquare
        0).cols = exampleSquare.cols ∧
      (exampleTile.gemm_a_DenseM (fun _ => 9) Trans.N Trans.N 2 exampleDense 3 exampleSquare
        0).ld = exampleSquare.ld ∧
      ∀ i j, i < exampleSquare.rows → j < exampleSquare.cols →
        (exampleTile.gemm_a_DenseM (fun _ => 9) Trans.N Trans.N 2 exampleDense 3 exampleSquare
            0).get i j
          = 2 * mulEntries (if Trans.N = Trans.N then exampleTile.cols else exampleTile.rows)
              (opEntry Trans.N exampleTile.elemSpec) (opEntry Trans.N exampleDense.get) i j
            + 3 * exampleSquare.get i j :=
  gemm_a_dense_operand exampleTile (fun _ => 9) Trans.N Trans.N 2 3 exampleDense exampleSquare
    0 rfl (by decide)

/-- C15: for a low-rank tile with materialization `T = U*V` used as the right operand,
a dense left operand `a` (a matrix, or the block `D` of a `DenseTile`), flags `ta`, `tb`,
scalars `alpha`, `beta` and an output matrix `c` (leading dimension at least its number
of rows), `gemm_b(ta, tb, alpha, a, beta, c)` keeps the shape of `c` and leaves every
entry `c(i,j) = alpha * (op_ta(a) * op_tb(T))(i,j) + beta * c_old(i,j)`. -/
theorem gemm_b_dense_operand {α : Type} [CommRing α] [StarRing α] (t : LRTile α)
    (fresh : Nat → α) (ta tb : Trans) (alpha beta : α) (a c : DenseMatrix α)
    (aTile : DenseTile α) (depth cutoff : Int) (hc : c.wellFormed) :
    ((t.gemm_b_DenseM fresh ta tb alpha a beta c depth).rows = c.rows ∧
      (t.gemm_b_DenseM fresh ta tb alpha a beta c depth).cols = c.cols ∧
      (t.gemm_b_DenseM fresh ta tb alpha a beta c depth).ld = c.ld ∧
      ∀ i j, i < c.rows → j < c.cols →
        (t.gemm_b_DenseM fresh ta tb alpha a beta c depth).get i j
          = alpha * mulEntries (opCols ta a) (opEntry ta a.get) (opEntry tb t.elemSpec) i j
            + beta * c.get i j) ∧
    ((t.gemm_b_DenseTile cutoff fresh ta tb alpha aTile beta c).rows = c.rows ∧
      (t.gemm_b_DenseTile cutoff fresh ta tb alpha aTile beta c).cols = c.cols ∧
      (t.gemm_b_DenseTile cutoff fresh ta tb alpha aTile beta c).ld = c.ld ∧
      ∀ i j, i < c.rows → j < c.cols →
        (t.gemm_b_DenseTile cutoff fresh ta tb alpha aTile beta c).get i j
          = alpha * mulEntries (opCols ta aTile.D) (opEntry ta aTile.D.get)
              (opEntry tb t.elemSpec) i j + beta * c.get i j) := by
  have key : ∀ (a : DenseMatrix α) (depth : Int) (i j : Nat), i < c.rows → j < c.cols →
      (t.gemm_b_DenseM fresh ta tb alpha a beta c depth).get i j
        = alpha * mulEntries (opCols ta a) (opEntry ta a.get) (opEntry tb t.elemSpec) i j
          + beta * c.get i j := by
    intro a depth i j hi hj
    have hch := gemm_chain_right ta tb alpha beta a (if tb = Trans.N then t.U else t.V)
      (if tb = Trans.N then t.V else t.U) c (DenseMatrix.alloc c.rows t.rank fresh) depth
      i j hc hi hj (alloc_wellFormed _ _ _) rfl
    unfold LRTile.gemm_b_DenseM
    simp only []
    rw [hch]
    congr 2
    apply mulEntries_congr
    intro l _
    refine ⟨rfl, ?_⟩
    rw [opEntry_elemSpec tb t l j]
    rfl
  exact ⟨⟨rfl, rfl, rfl, key a depth⟩, ⟨rfl, rfl, rfl, key aTile.D cutoff⟩⟩

/-- Witness for C15: the 2 x 3 matrix `exampleDense` times `exampleTile` (3 x 2),
accumulated into the 2 x 2 matrix `exampleSmall` with `alpha = 2`, `beta = 3`. -/
theorem gemm_b_dense_operand_witness :
    ((exampleTile.gemm_b_DenseM (fun _ => 9) Trans.N Trans.N 2 exampleDense 3 exampleSmall
          0).rows = exampleSmall.rows ∧
      (exampleTile.gemm_b_DenseM (fun _ => 9) Trans.N Trans.N 2 exampleDense 3 exampleSmall
          0).cols = exampleSmall.cols ∧
      (exampleTile.gemm_b_DenseM (fun _ => 9) Trans.N Trans.N 2 exampleDense 3 exampleSmall
          0).ld = exampleSmall.ld ∧
      ∀ i j, i < exampleSmall.rows → j < exampleSmall.cols →
        (exampleTile.gemm_b_DenseM (fun _ => 9) Trans.N Trans.N 2 exampleDense 3 exampleSmall
            0).get i j
          = 2 * mulEntries (opCols Trans.N exampleDense) (opEntry Trans.N exampleDense.get)
              (opEntry Trans.N exampleTile.elemSpec) i j + 3 * exampleSmall.get i j) ∧
    ((exampleTile.gemm_b_DenseTile 0 (fun _ => 9) Trans.N Trans.N 2 ⟨exampleDense⟩ 3
          exampleSmall).rows = exampleSmall.rows ∧
      (exampleTile.gemm_b_DenseTile 0 (fun _ => 9) Trans.N Trans.N 2 ⟨exampleDense⟩ 3
          exampleSmall).cols = exampleSmall.cols ∧
      (exampleTile.gemm_b_DenseTile 0 (fun _ => 9) Trans.N Trans.N 2 ⟨exampleDense⟩ 3
          exampleSmall).ld = exampleSmall.ld ∧
      ∀ i j, i < exampleSmall.rows → j < exampleSmall.cols →
        (exampleTile.gemm_b_DenseTile 0 (fun _ => 9) Trans.N Trans.N 2 ⟨exampleDense⟩ 3
            exampleSmall).get i j
          = 2 * mulEntries (opCols Trans.N (DenseTile.D ⟨exampleDense⟩))
              (opEntry Trans.N (DenseTile.D ⟨exampleDense⟩).get)
              (opEntry Trans.N exampleTile.elemSpec) i j + 3 * exampleSmall.get i j) :=
  gemm_b_dense_operand exampleTile (fun _ => 9) Trans.N Trans.N 2 3 exampleDense exampleSmall
    ⟨exampleDense⟩ 0 0 (by decide)

theorem gemm_b_get {α : Type} [CommRing α] [StarRing α] (t a : LRTile α) (cutoff : Int)
    (fresh : Nat → α) (ta tb : Trans) (alpha beta : α) (c : DenseMatrix α) (i j : Nat)
    (hVa : a.V_.rows = a.rank) (hc : c.wellFormed) (hi : i < c.rows) (hj : j < c.cols) :
    (t.gemm_b cutoff fresh ta tb alpha a beta c).get i j
      = alpha * mulEntries (if ta = Trans.N then a.cols else a.rows)
          (opEntry ta a.elemSpec) (opEntry tb t.elemSpec) i j + beta * c.get i j := by
  have hra : a.rank = opCols ta (if ta = Trans.N then a.U else a.V) := by
    cases ta
    · rfl
    · exact hVa.symm
    · exact hVa.symm
  have hK : opCols ta (if ta = Trans.N then a.V else a.U)
      = if ta = Trans.N then a.cols else a.rows := by
    cases ta <;> rfl
  unfold LRTile.gemm_b
  simp only []
  rw [gemm_get Trans.N tb alpha beta _ _ c cutoff i j hc hi hj]
  congr 2
  have h1 : ∀ q q2, q < a.rank → q2 < t.rank →
      (gemm ta tb 1 (if ta = Trans.N then a.V else a.U) (if tb = Trans.N then t.U else t.V) 0
        (DenseMatrix.alloc a.rank t.rank fresh) cutoff).get q q2
      = mulEntries (if ta = Trans.N then a.cols else a.rows)
          (opEntry ta (if ta = Trans.N then a.V else a.U).get)
          (opEntry tb (if tb = Trans.N then t.U else t.V).get) q q2 := by
    intro q q2 hq hq2
    have h := gemm_get_one_zero ta tb (if ta = Trans.N then a.V else a.U)
      (if tb = Trans.N then t.U else t.V) (DenseMatrix.alloc a.rank t.rank fresh) cutoff q q2
      (alloc_wellFormed a.rank t.rank fresh) hq hq2
    rw [hK] at h
    exact h
  have h2 : ∀ q2, q2 < t.rank →
      (gemm ta Trans.N 1 (if ta = Trans.N then a.U else a.V)
        (gemm ta tb 1 (if ta = Trans.N then a.V else a.U)
          (if tb = Trans.N then t.U else t.V) 0
          (DenseMatrix.alloc a.rank t.rank fresh) cutoff) 0
        (DenseMatrix.alloc c.rows t.rank fresh) cutoff).get i q2
      = mulEntries (if ta = Trans.N then a.cols else a.rows) (opEntry ta a.elemSpec)
          (opEntry tb (if tb = Trans.N then t.U else t.V).get) i q2 := by
    intro q2 hq2
    have h := gemm_get_one_zero ta Trans.N (if ta = Trans.N then a.U else a.V)
      (gemm ta tb 1 (if ta = Trans.N then a.V else a.U)
        (if tb = Trans.N then t.U else t.V) 0 (DenseMatrix.alloc a.rank t.rank fresh) cutoff)
      (DenseMatrix.alloc c.rows t.rank fresh) cutoff i q2
      (alloc_wellFormed c.rows t.rank fresh) hi hq2
    rw [← hra] at h
    refine h.trans ?_
    refine (mulEntries_congr a.rank _ _
      (opEntry ta (if ta = Trans.N then a.U else a.V).get)
      (mulEntries (if ta = Trans.N then a.cols else a.rows)
        (opEntry ta (if ta = Trans.N then a.V else a.U).get)
        (opEntry tb (if tb = Trans.N then t.U else t.V).get)) i q2
      (fun l hl => ⟨rfl, h1 l q2 hl hq2⟩)).trans ?_
    refine (mulEntries_assoc _ _ _ _ _ i q2).trans ?_
    apply mulEntries_congr
    intro l _
    exact ⟨(opEntry_elemSpec ta a i l).symm, rfl⟩
  refine (mulEntries_congr t.rank _ _
    (mulEntries (if ta = Trans.N then a.cols else a.rows) (opEntry ta a.elemSpec)
      (opEntry tb (if tb = Trans.N then t.U else t.V).get))
    (opEntry tb (if tb = Trans.N then t.V else t.U).get) i j
    (fun l hl => ⟨h2 l hl, rfl⟩)).trans ?_
  refine (mulEntries_assoc _ _ _ _ _ i j).symm.trans ?_
  apply mulEntries_congr
  intro l _
  exact ⟨rfl, (opEntry_elemSpec tb t l j).symm⟩

/-- C16: for low-rank tiles `a` (rank `ra`, `V` with `ra` rows, materialization `A`) and
`b` (materialization `B`), flags `ta`, `tb`, scalars `alpha`, `beta` and an output matrix
`c`, `a.gemm_a(ta, tb, alpha, b, beta, c)` is the call `b.gemm_b(ta, tb, alpha, a, beta,
c)`, keeps the shape of `c` and leaves every entry
`c(i,j) = alpha * (op_ta(A) * op_tb(B))(i,j) + beta * c_old(i,j)`: `a` is the left and
`b` the right operand. -/
theorem gemm_a_low_rank_operand {α : Type} [CommRing α] [StarRing α] (a b : LRTile α)
    (cutoff : Int) (fresh : Nat → α) (ta tb : Trans) (alpha beta : α) (c : DenseMatrix α)
    (hVa : a.V_.rows = a.rank) (hc : c.wellFormed) :
    a.gemm_a cutoff fresh ta tb alpha b.toBLRTile beta c
        = b.gemm_b cutoff fresh ta tb alpha a beta c ∧
      (a.gemm_a cutoff fresh ta tb alpha b.toBLRTile beta c).rows = c.rows ∧
      (a.gemm_a cutoff fresh ta tb alpha b.toBLRTile beta c).cols = c.cols ∧
      (a.gemm_a cutoff fresh ta tb alpha b.toBLRTile beta c).ld = c.ld ∧
      ∀ i j, i < c.rows → j < c.cols →
        (a.gemm_a cutoff fresh ta tb alpha b.toBLRTile beta c).get i j
          = alpha * mulEntries (if ta = Trans.N then a.cols else a.rows)
              (opEntry ta a.elemSpec) (opEntry tb b.elemSpec) i j + beta * c.get i j :=
  ⟨rfl, rfl, rfl, rfl, fun i j hi hj =>
    gemm_b_get b a cutoff fresh ta tb alpha beta c i j hVa hc hi hj⟩


/-- Witness for C16: `exampleTile` (3 x 2) times `exampleTile2` (2 x 3), accumulated into
the 3 x 3 matrix `exampleSquare` with `alpha = 2`, `beta = 3`. -/
theorem gemm_a_low_rank_operand_witness :
    exampleTile.gemm_a 0 (fun _ => 9) Trans.N Trans.N 2 exampleTile2.toBLRTile 3 exampleSquare
        = exampleTile2.gemm_b 0 (fun _ => 9) Trans.N Trans.N 2 exampleTile 3 exampleSquare ∧
      (exampleTile.gemm_a 0 (fun _ => 9) Trans.N Trans.N 2 exampleTile2.toBLRTile 3
        exampleSquare).rows = exampleSquare.rows ∧
      (exampleTile.gemm_a 0 (fun _ => 9) Trans.N Trans.N 2 exampleTile2.toBLRTile 3
        exampleSquare).cols = exampleSquare.cols ∧
      (exampleTile.gemm_a 0 (fun _ => 9) Trans.N Trans.N 2 exampleTile2.toBLRTile 3
        exampleSquare).ld = exampleSquare.ld ∧
      ∀ i j, i < exampleSquare.rows → j < exampleSquare.cols →
        (exampleTile.gemm_a 0 (fun _ => 9) Trans.N Trans.N 2 exampleTile2.toBLRTile 3
            exampleSquare).get i j
          = 2 * mulEntries (if Trans.N = Trans.N then exampleTile.cols else exampleTile.rows)
              (opEntry Trans.N exampleTile.elemSpec) (opEntry Trans.N exampleTile2.elemSpec)
              i j + 3 * exampleSquare.get i j :=
  gemm_a_low_rank_operand exampleTile exampleTile2 0 (fun _ => 9) Trans.N Trans.N 2 3
    exampleSquare rfl (by decide)

/-! ## Theorems on the matrix-vector kernels of a low-rank tile -/

theorem get_col_zero {α : Type} (A : DenseMatrix α) (k : Nat) : A.get k 0 = A.data_ k := by
  show A.data_ (k + 0 * A.ld) = A.data_ k
  rw [Nat.zero_mul, Nat.add_zero]

theorem blas_gemv_at {α : Type} [CommRing α] [Star α] (ta : Trans) (alpha beta : α)
    (a : DenseMatrix α) (x y : Nat → α) (incx incy k : Nat) (hinc : 0 < incy)
    (hk : k < opRows ta a) :
    blas.gemv ta alpha a x incx beta y incy (k * incy)
      = alpha * mulEntries (opCols ta a) (opEntry ta a.get) (fun l _ => x (l * incx)) k 0
        + beta * y (k * incy) := by
  have h1 : k * incy % incy = 0 := Nat.mul_mod_left k incy
  have h2 : k * incy / incy = k := Nat.mul_div_left k hinc
  unfold blas.gemv
  rw [h1, h2, sumUpTo_eq_sum, opGet_eq_opEntry]
  cases ta
  · exact if_pos ⟨rfl, hk⟩
  · exact if_pos ⟨rfl, hk⟩
  · exact if_pos ⟨rfl, hk⟩

theorem blas_gemv_other {α : Type} [CommRing α] [Star α] (ta : Trans) (alpha beta : α)
    (a : DenseMatrix α) (x y : Nat → α) (incx incy p : Nat)
    (hp : ¬ (p % incy = 0 ∧ p / incy < opRows ta a)) :
    blas.gemv ta alpha a x incx beta y incy p = y p := by
  unfold blas.gemv
  cases ta
  · exact if_neg hp
  · exact if_neg hp
  · exact if_neg hp

/-- The two products of `gemv_a` and of the Schur updates: `Y` times the temporary vector
`X * x`, accumulated into the strided vector `y`. -/
theorem gemv_chain {α : Type} [CommRing α] [Star α] (ta : Trans) (alpha beta : α)
    (X Y : DenseMatrix α) (x y fresh : Nat → α) (incx incy k : Nat) (hinc : 0 < incy)
    (hk : k < opRows ta Y) (hr : opCols ta Y ≤ opRows ta X) :
    blas.gemv ta alpha Y (blas.gemv ta 1 X x incx 0 fresh 1) 1 beta y incy (k * incy)
      = alpha * mulEntries (opCols ta X)
          (mulEntries (opCols ta Y) (opEntry ta Y.get) (opEntry ta X.get))
          (fun l _ => x (l * incx)) k 0 + beta * y (k * incy) := by
  rw [blas_gemv_at ta alpha beta Y _ y 1 incy k hinc hk]
  congr 2
  refine Eq.trans ?_ (mulEntries_assoc _ _ (opEntry ta Y.get) (opEntry ta X.get)
    (fun l _ => x (l * incx)) k 0)
  apply mulEntries_congr
  intro q hq
  refine ⟨rfl, ?_⟩
  have h := blas_gemv_at ta 1 0 X x fresh incx 1 q Nat.one_pos (Nat.lt_of_lt_of_le hq hr)
  rw [one_mul, zero_mul, add_zero] at h
  exact h

/-- C13: for a low-rank tile of rank `r` (`V` has `r` rows) with materialization
`T = U*V`, a flag `ta`, scalars `alpha`, `beta` and vectors `x`, `y` (matrices of one
column), `gemv_a(ta, alpha, x, beta, y)` keeps the shape of `y` and leaves
`y(k) = alpha * (op_ta(T) * x)(k) + beta * y_old(k)` for every row index `k` of
`op_ta(T)`, the rest of `y` being unchanged. -/
theorem gemv_a_result {α : Type} [CommRing α] [StarRing α] (t : LRTile α) (cutoff : Int)
    (fresh : Nat → α) (ta : Trans) (alpha beta : α) (x y : DenseMatrix α)
    (hVr : t.V_.rows = t.rank) :
    (t.gemv_a cutoff fresh ta alpha x beta y).rows = y.rows ∧
      (t.gemv_a cutoff fresh ta alpha x beta y).cols = y.cols ∧
      (t.gemv_a cutoff fresh ta alpha x beta y).ld = y.ld ∧
      (∀ k, k < (if ta = Trans.N then t.rows else t.cols) →
        (t.gemv_a cutoff fresh ta alpha x beta y).get k 0
          = alpha * mulEntries (if ta = Trans.N then t.cols else t.rows)
              (opEntry ta t.elemSpec) (fun l _ => x.get l 0) k 0 + beta * y.get k 0) ∧
      (∀ k, (if ta = Trans.N then t.rows else t.cols) ≤ k →
        (t.gemv_a cutoff fresh ta alpha x beta y).get k 0 = y.get k 0) := by
  have hrows : opRows ta (if ta = Trans.N then t.U else t.V)
      = if ta = Trans.N then t.rows else t.cols := by
    cases ta <;> rfl
  have hK : opCols ta (if ta = Trans.N then t.V else t.U)
      = if ta = Trans.N then t.cols else t.rows := by
    cases ta <;> rfl
  have hr : opCols ta (if ta = Trans.N then t.U else t.V)
      ≤ opRows ta (if ta = Trans.N then t.V else t.U) := by
    cases ta
    · exact le_of_eq hVr.symm
    · exact le_of_eq hVr
    · exact le_of_eq hVr
  have hrank : opCols ta (if ta = Trans.N then t.U else t.V) = t.rank := by
    cases ta
    · rfl
    · exact hVr
    · exact hVr
  refine ⟨rfl, rfl, rfl, ?_, ?_⟩
  · intro k hk
    rw [get_col_zero, get_col_zero]
    have h := gemv_chain ta alpha beta (if ta = Trans.N then t.V else t.U)
      (if ta = Trans.N then t.U else t.V) x.data_ y.data_ fresh 1 1 k Nat.one_pos
      (by rw [hrows]; exact hk) hr
    rw [Nat.mul_one] at h
    refine h.trans ?_
    rw [hK, hrank]
    congr 2
    apply mulEntries_congr
    intro l _
    refine ⟨(opEntry_elemSpec ta t k l).symm, ?_⟩
    rw [get_col_zero, Nat.mul_one]
  · intro k hk
    rw [get_col_zero, get_col_zero]
    refine blas_gemv_other ta alpha beta _ _ y.data_ 1 1 k ?_
    rw [hrows, Nat.div_one]
    exact fun h => absurd h.2 (Nat.not_lt.2 hk)

/-- Witness for C13: `exampleTile` (3 x 2) transposed, applied to the first column of
`exampleSquare` and accumulated into the first column of `exampleSmall`. -/
theorem gemv_a_result_witness :
    (exampleTile.gemv_a 0 (fun _ => 9) Trans.T 2 exampleSquare 3 exampleSmall).rows
        = exampleSmall.rows ∧
      (exampleTile.gemv_a 0 (fun _ => 9) Trans.T 2 exampleSquare 3 exampleSmall).cols
        = exampleSmall.cols ∧
      (exampleTile.gemv_a 0 (fun _ => 9) Trans.T 2 exampleSquare 3 exampleSmall).ld
        = exampleSmall.ld ∧
      (∀ k, k < (if Trans.T = Trans.N then exampleTile.rows else exampleTile.cols) →
        (exampleTile.gemv_a 0 (fun _ => 9) Trans.T 2 exampleSquare 3 exampleSmall).get k 0
          = 2 * mulEntries (if Trans.T = Trans.N then exampleTile.cols else exampleTile.rows)
              (opEntry Trans.T exampleTile.elemSpec) (fun l _ => exampleSquare.get l 0) k 0
            + 3 * exampleSmall.get k 0) ∧
      (∀ k, (if Trans.T = Trans.N then exampleTile.rows else exampleTile.cols) ≤ k →
        (exampleTile.gemv_a 0 (fun _ => 9) Trans.T 2 exampleSquare 3 exampleSmall).get k 0
          = exampleSmall.get k 0) :=
  gemv_a_result exampleTile 0 (fun _ => 9) Trans.T 2 3 exampleSquare exampleSmall rfl

/-! ## Theorems on the Schur updates of a low-rank tile -/

theorem mulEntries_vec {α : Type} [CommRing α] (K : Nat) (f g : Nat → Nat → α) (k i : Nat) :
    mulEntries K f (fun l _ => g l i) k 0 = mulEntries K f g k i := rfl

theorem tile_column {α : Type} [CommRing α] [Star α] (b : LRTile α) (fresh : Nat → α)
    (i l : Nat) (hl : l < b.rows) :
    blas.gemv Trans.N 1 b.U_ (b.V_.from_ptr 0 i) 1 0 fresh 1 (l * 1) = b.elemSpec l i := by
  have h := blas_gemv_at Trans.N 1 0 b.U_ (b.V_.from_ptr 0 i) fresh 1 1 l Nat.one_pos hl
  rw [one_mul, zero_mul, add_zero] at h
  refine h.trans ?_
  show mulEntries b.rank b.U_.get (fun q _ => b.V_.from_ptr 0 i (q * 1)) l 0
    = mulEntries b.rank b.U_.get (fun q _ => b.V_.get q i) l 0
  apply mulEntries_congr
  intro q _
  refine ⟨rfl, ?_⟩
  show b.V_.data_ (0 + i * b.V_.ld + q * 1) = b.V_.data_ (q + i * b.V_.ld)
  congr 1
  omega

/-- C17: for a low-rank tile `b` with materialization `B = U*V` and a left operand with
materialization `A` whose number of columns is the number of rows of `b` (a low-rank
tile `a` whose `V` has `rank()` rows, or a dense tile `aD`), a column index `i` and a
destination `c` with stride `incc > 0`: `Schur_update_col_b(i, a, c, incc)` on `b`, which
is what `a.Schur_update_col_a(i, b, c, incc)` calls, leaves
`c(k) = c_old(k) - (A * B)(k,i)` for every row `k` of `A` and does not touch the
buffer elsewhere; no conjugation is involved. -/
theorem Schur_update_col_subtracts_column {α : Type} [CommRing α] [StarRing α]
    (b a : LRTile α) (aD : DenseTile α) (cutoff : Int) (fresh : Nat → α) (i : Nat)
    (c : Nat → α) (incc : Nat) (hinc : 0 < incc) (hVa : a.V_.rows = a.rank)
    (hconf : a.cols = b.rows) (hconfD : aD.D.cols = b.rows) :
    ((∀ k, k < a.rows →
        b.Schur_update_col_b cutoff fresh i a c incc (k * incc)
          = c (k * incc) - mulEntries a.cols a.elemSpec b.elemSpec k i) ∧
      (∀ p, ¬ (p % incc = 0 ∧ p / incc < a.rows) →
        b.Schur_update_col_b cutoff fresh i a c incc p = c p) ∧
      a.Schur_update_col_a cutoff fresh i b.toBLRTile c incc
        = b.Schur_update_col_b cutoff fresh i a c incc) ∧
    ((∀ k, k < aD.D.rows →
        b.Schur_update_col_b_DenseTile cutoff fresh i aD c incc (k * incc)
          = c (k * incc) - mulEntries aD.D.cols aD.D.get b.elemSpec k i) ∧
      (∀ p, ¬ (p % incc = 0 ∧ p / incc < aD.D.rows) →
        b.Schur_update_col_b_DenseTile cutoff fresh i aD c incc p = c p)) := by
  refine ⟨⟨?_, ?_, rfl⟩, ⟨?_, ?_⟩⟩
  · intro k hk
    have h := gemv_chain Trans.N (-1) 1 a.V a.U
      (blas.gemv Trans.N 1 b.U_ (b.V_.from_ptr 0 i) 1 0 fresh 1) c fresh 1 incc k hinc hk
      (le_of_eq hVa.symm)
    refine Eq.trans h ?_
    have hsum : mulEntries (opCols Trans.N a.V)
        (mulEntries (opCols Trans.N a.U) (opEntry Trans.N a.U.get) (opEntry Trans.N a.V.get))
        (fun l _ => blas.gemv Trans.N 1 b.U_ (b.V_.from_ptr 0 i) 1 0 fresh 1 (l * 1)) k 0
        = mulEntries a.cols a.elemSpec b.elemSpec k i := by
      refine Eq.trans ?_ (mulEntries_vec a.cols a.elemSpec b.elemSpec k i)
      apply mulEntries_congr
      intro l hl
      exact ⟨rfl, tile_column b fresh i l (by rw [← hconf]; exact hl)⟩
    rw [hsum]
    ring
  · intro p hp
    exact blas_gemv_other Trans.N (-1) 1 a.U _ c 1 incc p hp
  · intro k hk
    have h := blas_gemv_at Trans.N (-1) 1 aD.D
      (gemv_xptr Trans.N 1 b.U_ (b.V_.from_ptr 0 i) 1 0
        (DenseMatrix.alloc b.rows 1 fresh) cutoff).data_ c 1 incc k hinc hk
    refine Eq.trans h ?_
    have hsum : mulEntries (opCols Trans.N aD.D) (opEntry Trans.N aD.D.get)
        (fun l _ => (gemv_xptr Trans.N 1 b.U_ (b.V_.from_ptr 0 i) 1 0
          (DenseMatrix.alloc b.rows 1 fresh) cutoff).data_ (l * 1)) k 0
        = mulEntries aD.D.cols aD.D.get b.elemSpec k i := by
      refine Eq.trans ?_ (mulEntries_vec aD.D.cols aD.D.get b.elemSpec k i)
      apply mulEntries_congr
      intro l hl
      exact ⟨rfl, tile_column b fresh i l (by rw [← hconfD]; exact hl)⟩
    rw [hsum]
    ring
  · intro p hp
    exact blas_gemv_other Trans.N (-1) 1 aD.D _ c 1 incc p hp

/-- Witness for C17: column 1 of `exampleTile * exampleTile2` and of
`exampleOut * exampleTile2`, subtracted from a destination with stride 2. -/
theorem Schur_update_col_subtracts_column_witness :
    ((∀ k, k < exampleTile.rows →
        exampleTile2.Schur_update_col_b 0 (fun _ => 9) 1 exampleTile (fun p => (p : Int)) 2
            (k * 2)
          = (fun p => (p : Int)) (k * 2)
            - mulEntries exampleTile.cols exampleTile.elemSpec exampleTile2.elemSpec k 1) ∧
      (∀ p, ¬ (p % 2 = 0 ∧ p / 2 < exampleTile.rows) →
        exampleTile2.Schur_update_col_b 0 (fun _ => 9) 1 exampleTile (fun p => (p : Int)) 2 p
          = (fun p => (p : Int)) p) ∧
      exampleTile.Schur_update_col_a 0 (fun _ => 9) 1 exampleTile2.toBLRTile
          (fun p => (p : Int)) 2
        = exampleTile2.Schur_update_col_b 0 (fun _ => 9) 1 exampleTile (fun p => (p : Int)) 2) ∧
    ((∀ k, k < (DenseTile.D ⟨exampleOut⟩).rows →
        exampleTile2.Schur_update_col_b_DenseTile 0 (fun _ => 9) 1 ⟨exampleOut⟩
            (fun p => (p : Int)) 2 (k * 2)
          = (fun p => (p : Int)) (k * 2)
            - mulEntries (DenseTile.D ⟨exampleOut⟩).cols (DenseTile.D ⟨exampleOut⟩).get
                exampleTile2.elemSpec k 1) ∧
      (∀ p, ¬ (p % 2 = 0 ∧ p / 2 < (DenseTile.D ⟨exampleOut⟩).rows) →
        exampleTile2.Schur_update_col_b_DenseTile 0 (fun _ => 9) 1 ⟨exampleOut⟩
            (fun p => (p : Int)) 2 p
          = (fun p => (p : Int)) p)) :=
  Schur_update_col_subtracts_column exampleTile2 exampleTile ⟨exampleOut⟩ 0 (fun _ => 9) 1
    (fun p => (p : Int)) 2 (by decide) rfl rfl rfl

theorem tile_row_conj {α : Type} [CommRing α] [Star α] (a : LRTile α) (fresh : Nat → α)
    (i l : Nat) (hl : l < a.cols) :
    blas.gemv Trans.C 1 a.V (a.U.from_ptr i 0) a.U.ld 0 fresh 1 (l * 1)
      = mulEntries a.V_.rows (opEntry Trans.C a.V_.get) (fun q _ => a.U_.get i q) l 0 := by
  have h := blas_gemv_at Trans.C 1 0 a.V (a.U.from_ptr i 0) fresh a.U.ld 1 l Nat.one_pos hl
  rw [one_mul, zero_mul, add_zero] at h
  refine h.trans ?_
  show mulEntries a.V_.rows (opEntry Trans.C a.V_.get)
      (fun q _ => a.U_.from_ptr i 0 (q * a.U_.ld)) l 0
    = mulEntries a.V_.rows (opEntry Trans.C a.V_.get) (fun q _ => a.U_.get i q) l 0
  apply mulEntries_congr
  intro q _
  refine ⟨rfl, ?_⟩
  show a.U_.data_ (i + 0 * a.U_.ld + q * a.U_.ld) = a.U_.data_ (i + q * a.U_.ld)
  congr 1
  omega

/-- What `Schur_update_row_b(i, a, c, incc)` computes for any scalars: every factor `V`
and the factor `U` of `b` enter conjugated, the row of `U` of `a` does not. -/
theorem Schur_update_row_b_formula {α : Type} [CommRing α] [StarRing α] (b a : LRTile α)
    (cutoff : Int) (fresh : Nat → α) (i : Nat) (c : Nat → α) (incc j : Nat)
    (hinc : 0 < incc) (hVb : b.V_.rows = b.rank) (hconf : a.cols = b.rows)
    (hj : j < b.cols) :
    b.Schur_update_row_b cutoff fresh i a c incc (j * incc)
      = c (j * incc) - mulEntries b.rows (opEntry Trans.C b.elemSpec)
          (fun l _ => mulEntries a.V_.rows (opEntry Trans.C a.V_.get)
            (fun q _ => a.U_.get i q) l 0) j 0 := by
  have h := gemv_chain Trans.C (-1) 1 b.U_ b.V_
    (blas.gemv Trans.C 1 a.V (a.U.from_ptr i 0) a.U.ld 0 fresh 1) c fresh 1 incc j hinc hj
    (le_of_eq hVb)
  refine Eq.trans h ?_
  have hsum : mulEntries (opCols Trans.C b.U_)
      (mulEntries (opCols Trans.C b.V_) (opEntry Trans.C b.V_.get) (opEntry Trans.C b.U_.get))
      (fun l _ => blas.gemv Trans.C 1 a.V (a.U.from_ptr i 0) a.U.ld 0 fresh 1 (l * 1)) j 0
      = mulEntries b.rows (opEntry Trans.C b.elemSpec)
          (fun l _ => mulEntries a.V_.rows (opEntry Trans.C a.V_.get)
            (fun q _ => a.U_.get i q) l 0) j 0 := by
    apply mulEntries_congr
    intro l hl
    refine ⟨?_, tile_row_conj a fresh i l (by rw [hconf]; exact hl)⟩
    rw [opEntry_elemSpec Trans.C b j l]
    show mulEntries b.V_.rows _ _ j l = mulEntries b.rank _ _ j l
    rw [hVb]
    rfl
  rw [hsum]
  ring

/-- For scalars with trivial conjugation (the real instantiations) the row update
subtracts row `i` of `A * B`. -/
theorem Schur_update_row_b_real {α : Type} [CommRing α] [StarRing α] [TrivialStar α]
    (b a : LRTile α) (cutoff : Int) (fresh : Nat → α) (i : Nat) (c : Nat → α) (incc j : Nat)
    (hinc : 0 < incc) (hVa : a.V_.rows = a.rank) (hVb : b.V_.rows = b.rank)
    (hconf : a.cols = b.rows) (hj : j < b.cols) :
    b.Schur_update_row_b cutoff fresh i a c incc (j * incc)
      = c (j * incc) - mulEntries a.cols a.elemSpec b.elemSpec i j := by
  rw [Schur_update_row_b_formula b a cutoff fresh i c incc j hinc hVb hconf hj, hconf]
  congr 1
  unfold mulEntries
  refine Finset.sum_congr rfl fun l _ => ?_
  show star (b.elemSpec l j) * (Finset.sum (Finset.range a.V_.rows) fun q =>
      star (a.V_.get q l) * a.U_.get i q) = a.elemSpec i l * b.elemSpec l j
  rw [star_trivial, hVa, mul_comm]
  congr 1
  refine Finset.sum_congr rfl fun q _ => ?_
  rw [star_trivial, mul_comm]

/-- C18 (evaluation of the code where the claim fails): over the Gaussian integers, with
`A = [[i, 1], [2i, 2]]` (the low-rank tile `exampleTileGa`, or the dense tile
`exampleDenseG`), `B = [[1, i], [1, i]]` (the tile `exampleTileGb`), row `i = 0`, a zero
destination and stride 1, the claim asks for `c = -(A*B)(0,:) = (-1-i, 1-i)`, while
`Schur_update_row_b` leaves `(-1+i, 1+i)` for the low-rank `a` and `(-1-i, -1+i)` for
the dense `a`: its `gemv` calls in `Trans::C` mode conjugate the factors.  The sibling
`Schur_update_col_b` on the same tiles subtracts the column of `A*B` unconjugated. -/
theorem Schur_update_row_b_conjugates_complex :
    (mulEntries exampleTileGa.cols exampleTileGa.elemSpec exampleTileGb.elemSpec 0 0 = ⟨1, 1⟩ ∧
      mulEntries exampleTileGa.cols exampleTileGa.elemSpec exampleTileGb.elemSpec 0 1
        = ⟨-1, 1⟩) ∧
    (exampleTileGb.Schur_update_row_b 0 (fun _ => 7) 0 exampleTileGa (fun _ => 0) 1 0
        = ⟨-1, 1⟩ ∧
      exampleTileGb.Schur_update_row_b 0 (fun _ => 7) 0 exampleTileGa (fun _ => 0) 1 1
        = ⟨1, 1⟩) ∧
    (exampleTileGb.Schur_update_row_b 0 (fun _ => 7) 0 exampleTileGa (fun _ => 0) 1 0
        ≠ 0 - mulEntries exampleTileGa.cols exampleTileGa.elemSpec exampleTileGb.elemSpec 0 0) ∧
    (mulEntries exampleDenseG.D.cols exampleDenseG.D.get exampleTileGb.elemSpec 0 1 = ⟨-1, 1⟩ ∧
      exampleTileGb.Schur_update_row_b_DenseTile 0 (fun _ => 7) 0 exampleDenseG (fun _ => 0) 1 1
        = ⟨-1, 1⟩ ∧
      exampleTileGb.Schur_update_row_b_DenseTile 0 (fun _ => 7) 0 exampleDenseG (fun _ => 0) 1 1
        ≠ 0 - mulEntries exampleDenseG.D.cols exampleDenseG.D.get exampleTileGb.elemSpec 0 1) ∧
    (exampleTileGa.Schur_update_row_a 0 (fun _ => 7) 0 exampleTileGb.toBLRTile (fun _ => 0) 1
        = exampleTileGb.Schur_update_row_b 0 (fun _ => 7) 0 exampleTileGa (fun _ => 0) 1) ∧
    (exampleTileGb.Schur_update_col_b 0 (fun _ => 7) 0 exampleTileGa (fun _ => 0) 1 0
        = 0 - mulEntries exampleTileGa.cols exampleTileGa.elemSpec exampleTileGb.elemSpec 0 0) := by
  refine ⟨⟨?_, ?_⟩, ⟨?_, ?_⟩, ?_, ⟨?_, ?_, ?_⟩, rfl, ?_⟩ <;> decide

/-! ## Theorems on local indices, the shape of a tile, the accessors and the test driver -/

theorem tileg2l_iff (N : Nat) (p : Int) (I : Nat) (h0 : 0 < N) (h1 : (N : Int) ≤ INT_MAX)
    (hI : (I : Int) ≤ INT_MAX) :
    ((∃ il, (if toInt (I % toSizeT (N : Int)) = p then some (I / toSizeT (N : Int)) else none)
        = some il) ↔ decide (Int.tmod (toInt I) (N : Int) = p) = true) ∧
    (∀ il, (if toInt (I % toSizeT (N : Int)) = p then some (I / toSizeT (N : Int)) else none)
        = some il → il = I / N ∧ (il : Int) * (N : Int) + p = (I : Int)) := by
  have hlt : I % N < N := Nat.mod_lt _ h0
  have hmod : Int.tmod (toInt I) (N : Int) = ((I % N : Nat) : Int) := by
    rw [toInt_of_le hI, Int.tmod_eq_emod (by omega) (by omega)]
    exact (Int.natCast_mod I N).symm
  rw [toSizeT_natCast (INT_MAX_lt_SIZE_T_MOD h1), toInt_of_le (by omega), hmod]
  constructor
  · constructor
    · rintro ⟨il, h⟩
      by_cases hp : ((I % N : Nat) : Int) = p
      · exact decide_eq_true hp
      · rw [if_neg hp] at h
        cases h
    · intro h
      have hp : ((I % N : Nat) : Int) = p := of_decide_eq_true h
      exact ⟨I / N, if_pos hp⟩
  · intro il h
    by_cases hp : ((I % N : Nat) : Int) = p
    · rw [if_pos hp] at h
      have e : il = I / N := (Option.some.inj h).symm
      refine ⟨e, ?_⟩
      have hd := Nat.mod_add_div I N
      have h2 : I / N * N + I % N = I := by
        rw [Nat.mul_comm]
        omega
      rw [e, ← hp]
      exact_mod_cast h2
    · rw [if_neg hp] at h
      cases h

/-- C21: for `Pr = nprows() > 0` and a global tile row `I` (an `int` value), the
assertion of `tilerg2l(I)` holds exactly when `is_local_row(I)` is true, and then the
local index `tilerg2l(I) = I div Pr` gives the global one back:
`tilerg2l(I)*Pr + prow = I`; the same for `tilecg2l`, `is_local_col`, `Pc` and `pcol`. -/
theorem tileg2l_assertion_iff_is_local {τ : Type} (m : BLRMatrixMPI τ) (Pr Pc I J : Nat)
    (hPr : 0 < Pr) (hPc : 0 < Pc)
    (hnr : m.grid_.nprows = Pr) (hnc : m.grid_.npcols = Pc)
    (hPrmax : (Pr : Int) ≤ INT_MAX) (hPcmax : (Pc : Int) ≤ INT_MAX)
    (hI : (I : Int) ≤ INT_MAX) (hJ : (J : Int) ≤ INT_MAX) :
    (((∃ il, m.tilerg2l I = some il) ↔ m.grid_.is_local_row (toInt I) = true) ∧
      (∀ il, m.tilerg2l I = some il →
        il = I / Pr ∧ (il : Int) * m.grid_.nprows + m.grid_.prow = (I : Int))) ∧
    (((∃ jl, m.tilecg2l J = some jl) ↔ m.grid_.is_local_col (toInt J) = true) ∧
      (∀ jl, m.tilecg2l J = some jl →
        jl = J / Pc ∧ (jl : Int) * m.grid_.npcols + m.grid_.pcol = (J : Int))) := by
  have hr := tileg2l_iff Pr m.grid_.prow I hPr hPrmax hI
  have hc := tileg2l_iff Pc m.grid_.pcol J hPc hPcmax hJ
  have hnr2 : m.grid_.nprows_ = Pr := hnr
  have hnc2 : m.grid_.npcols_ = Pc := hnc
  unfold BLRMatrixMPI.tilerg2l BLRMatrixMPI.tilecg2l ProcessorGrid2D.is_local_row
    ProcessorGrid2D.is_local_col
  rw [hnr, hnc, hnr2, hnc2]
  exact ⟨hr, hc⟩

/-- Witness for C21: tile row 1 and tile column 4 of `exampleMatrix` on the 2 x 3 grid. -/
theorem tileg2l_assertion_iff_is_local_witness :
    (((∃ il, exampleMatrix.tilerg2l 1 = some il)
        ↔ exampleMatrix.grid_.is_local_row (toInt 1) = true) ∧
      (∀ il, exampleMatrix.tilerg2l 1 = some il →
        il = 1 / 2 ∧ (il : Int) * exampleMatrix.grid_.nprows + exampleMatrix.grid_.prow
          = ((1 : Nat) : Int))) ∧
    (((∃ jl, exampleMatrix.tilecg2l 4 = some jl)
        ↔ exampleMatrix.grid_.is_local_col (toInt 4) = true) ∧
      (∀ jl, exampleMatrix.tilecg2l 4 = some jl →
        jl = 4 / 3 ∧ (jl : Int) * exampleMatrix.grid_.npcols + exampleMatrix.grid_.pcol
          = ((4 : Nat) : Int))) :=
  tileg2l_assertion_iff_is_local exampleMatrix 2 3 1 4 (by decide) (by decide) rfl rfl
    (by decide) (by decide) (by decide) (by decide)

theorem trsm_shape {α : Type} [Field α] [Star α] (s : Side) (ul : UpLo) (ta : Trans)
    (d : Diag) (alpha : α) (a b : DenseMatrix α) (c : Int) :
    (trsm s ul ta d alpha a b c).rows = b.rows ∧ (trsm s ul ta d alpha a b c).cols = b.cols ∧
      (trsm s ul ta d alpha a b c).ld = b.ld := by
  cases s <;> exact ⟨rfl, rfl, rfl⟩

/-- C22: for a well-formed low-rank tile (`U` is `m x r`, `V` is `r x n`, so
`U.cols() = V.rows()`), after `laswp(piv, fwd)` and after
`trsm_b(side, uplo, trans, diag, alpha, a)` the factors are still `m x r` and `r x n`
(so `U.cols() = V.rows()`), and `rows() = m`, `cols() = n`, `rank() = r`. -/
theorem inplace_operations_keep_shape {α : Type} [Field α] [Star α] (t : LRTile α)
    (m n r : Nat) (piv : List Int) (fwd : Bool) (cutoff : Int) (s : Side) (ul : UpLo)
    (ta : Trans) (d : Diag) (alpha : α) (a : DenseMatrix α)
    (hUr : t.U_.rows = m) (hUc : t.U_.cols = r) (hVr : t.V_.rows = r) (hVc : t.V_.cols = n) :
    (((t.laswp piv fwd).U_.rows = m ∧ (t.laswp piv fwd).U_.cols = r ∧
        (t.laswp piv fwd).V_.rows = r ∧ (t.laswp piv fwd).V_.cols = n) ∧
      (t.laswp piv fwd).U_.cols = (t.laswp piv fwd).V_.rows ∧
      (t.laswp piv fwd).rows = m ∧ (t.laswp piv fwd).cols = n ∧
      (t.laswp piv fwd).rank = r) ∧
    ((((t.trsm_b cutoff s ul ta d alpha a).U_.rows = m ∧
        (t.trsm_b cutoff s ul ta d alpha a).U_.cols = r ∧
        (t.trsm_b cutoff s ul ta d alpha a).V_.rows = r ∧
        (t.trsm_b cutoff s ul ta d alpha a).V_.cols = n) ∧
      (t.trsm_b cutoff s ul ta d alpha a).U_.cols = (t.trsm_b cutoff s ul ta d alpha a).V_.rows ∧
      (t.trsm_b cutoff s ul ta d alpha a).rows = m ∧
      (t.trsm_b cutoff s ul ta d alpha a).cols = n ∧
      (t.trsm_b cutoff s ul ta d alpha a).rank = r)) := by
  have hl := laswp_shape t.U_ piv fwd
  have hl1 : (t.laswp piv fwd).U_.rows = m := hl.1.trans hUr
  have hl2 : (t.laswp piv fwd).U_.cols = r := hl.2.1.trans hUc
  have hshape : ∀ t2 : LRTile α, t2.U_.rows = m → t2.U_.cols = r → t2.V_.rows = r →
      t2.V_.cols = n →
      (t2.U_.rows = m ∧ t2.U_.cols = r ∧ t2.V_.rows = r ∧ t2.V_.cols = n) ∧
        t2.U_.cols = t2.V_.rows ∧ t2.rows = m ∧ t2.cols = n ∧ t2.rank = r :=
    fun t2 h1 h2 h3 h4 => ⟨⟨h1, h2, h3, h4⟩, h2.trans h3.symm, h1, h4, h2⟩
  refine ⟨hshape _ hl1 hl2 hVr hVc, ?_⟩
  cases s
  · rw [trsm_b_L]
    have h := trsm_shape Side.L ul ta d alpha a t.U_ cutoff
    exact hshape _ (h.1.trans hUr) (h.2.1.trans hUc) hVr hVc
  · rw [trsm_b_R]
    have h := trsm_shape Side.R ul ta d alpha a t.V_ cutoff
    exact hshape _ hUr hUc (h.1.trans hVr) (h.2.1.trans hVc)

/-- Witness for C22: `exampleTileQ` (`m = 2`, `n = 2`, `r = 1`), pivots `[2, 2]` and a
solve from the right against `exampleTriQ`. -/
theorem inplace_operations_keep_shape_witness :
    (((exampleTileQ.laswp [2, 2] true).U_.rows = 2 ∧ (exampleTileQ.laswp [2, 2] true).U_.cols = 1 ∧
        (exampleTileQ.laswp [2, 2] true).V_.rows = 1 ∧
        (exampleTileQ.laswp [2, 2] true).V_.cols = 2) ∧
      (exampleTileQ.laswp [2, 2] true).U_.cols = (exampleTileQ.laswp [2, 2] true).V_.rows ∧
      (exampleTileQ.laswp [2, 2] true).rows = 2 ∧ (exampleTileQ.laswp [2, 2] true).cols = 2 ∧
      (exampleTileQ.laswp [2, 2] true).rank = 1) ∧
    ((((exampleTileQ.trsm_b 0 Side.R UpLo.U Trans.N Diag.N 2 exampleTriQ).U_.rows = 2 ∧
        (exampleTileQ.trsm_b 0 Side.R UpLo.U Trans.N Diag.N 2 exampleTriQ).U_.cols = 1 ∧
        (exampleTileQ.trsm_b 0 Side.R UpLo.U Trans.N Diag.N 2 exampleTriQ).V_.rows = 1 ∧
        (exampleTileQ.trsm_b 0 Side.R UpLo.U Trans.N Diag.N 2 exampleTriQ).V_.cols = 2) ∧
      (exampleTileQ.trsm_b 0 Side.R UpLo.U Trans.N Diag.N 2 exampleTriQ).U_.cols
        = (exampleTileQ.trsm_b 0 Side.R UpLo.U Trans.N Diag.N 2 exampleTriQ).V_.rows ∧
      (exampleTileQ.trsm_b 0 Side.R UpLo.U Trans.N Diag.N 2 exampleTriQ).rows = 2 ∧
      (exampleTileQ.trsm_b 0 Side.R UpLo.U Trans.N Diag.N 2 exampleTriQ).cols = 2 ∧
      (exampleTileQ.trsm_b 0 Side.R UpLo.U Trans.N Diag.N 2 exampleTriQ).rank = 1)) :=
  inplace_operations_keep_shape exampleTileQ 2 2 1 [2, 2] true 0 Side.R UpLo.U Trans.N Diag.N 2
    exampleTriQ rfl rfl rfl rfl

/-- C23: on every low-rank tile both overloads of `D()` fail their assertion
(`assert(false)`), so a checked call yields no dense block, while both overloads of `U()`
and `V()` succeed and return the stored factors; with the assertion compiled out `D()`
returns the factor `U`, not a dense block of its own. -/
theorem D_fails_U_V_return_factors {α : Type} (t : LRTile α) :
    (t.D = none ∧ t.D_const = none) ∧
      (t.U = t.U_ ∧ t.U_const = t.U_) ∧ (t.V = t.V_ ∧ t.V_const = t.V_) ∧
      (∀ A : DenseMatrix α, t.D ≠ some A ∧ t.D_const ≠ some A) ∧
      t.D_unchecked = t.U_ :=
  ⟨⟨rfl, rfl⟩, ⟨rfl, rfl⟩, ⟨rfl, rfl⟩,
    fun _ => ⟨fun h => Option.noConfusion h, fun h => Option.noConfusion h⟩, rfl⟩

/-- C24: for every matrix `A`, every command line and every behaviour of the solver,
`test_sparse_solver` returns 1 when `reorder()` does not return `SUCCESS` (and then
neither `factor()` nor `refine()` is called), returns 1 when `reorder()` returns
`SUCCESS` and `factor()` does not, and returns 0 otherwise; the returned code is the
same for every other `refine()`, whatever it returns or does to the solver. -/
theorem test_sparse_solver_return_code {σ Args M RC R : Type} [DecidableEq RC] (SUCCESS : RC)
    (solver_mx : MixedPrecisionSolver σ Args M RC R) (args : Args) (A : M) (init : σ) :
    ((solver_mx.reorder (solver_mx.set_matrix A
          (solver_mx.set_from_command_line args init))).1 ≠ SUCCESS →
        (test_sparse_solver SUCCESS solver_mx args A init).1 = 1 ∧
        SolverCall.factor ∉ (test_sparse_solver SUCCESS solver_mx args A init).2.1 ∧
        SolverCall.refine ∉ (test_sparse_solver SUCCESS solver_mx args A init).2.1) ∧
    ((solver_mx.reorder (solver_mx.set_matrix A
          (solver_mx.set_from_command_line args init))).1 = SUCCESS →
        (solver_mx.factor (solver_mx.reorder (solver_mx.set_matrix A
          (solver_mx.set_from_command_line args init))).2).1 ≠ SUCCESS →
        (test_sparse_solver SUCCESS solver_mx args A init).1 = 1 ∧
        SolverCall.refine ∉ (test_sparse_solver SUCCESS solver_mx args A init).2.1) ∧
    ((solver_mx.reorder (solver_mx.set_matrix A
          (solver_mx.set_from_command_line args init))).1 = SUCCESS →
        (solver_mx.factor (solver_mx.reorder (solver_mx.set_matrix A
          (solver_mx.set_from_command_line args init))).2).1 = SUCCESS →
        (test_sparse_solver SUCCESS solver_mx args A init).1 = 0 ∧
        SolverCall.refine ∈ (test_sparse_solver SUCCESS solver_mx args A init).2.1) ∧
    (∀ (R2 : Type) (refine2 : σ → R2 × σ),
        (test_sparse_solver SUCCESS
          (MixedPrecisionSolver.mk solver_mx.set_from_command_line solver_mx.set_matrix
            solver_mx.reorder solver_mx.factor refine2) args A init).1
          = (test_sparse_solver SUCCESS solver_mx args A init).1) := by
  refine ⟨?_, ?_, ?_, ?_⟩
  · intro h
    unfold test_sparse_solver
    simp only [h, ne_eq, not_false_eq_true, if_true]
    decide
  · intro h1 h2
    unfold test_sparse_solver
    simp only [h1, h2, ne_eq, not_true_eq_false, not_false_eq_true, if_true, if_false]
    decide
  · intro h1 h2
    unfold test_sparse_solver
    simp only [h1, h2, ne_eq, not_true_eq_false, if_false]
    decide
  · intro R2 refine2
    unfold test_sparse_solver
    simp only []
    split_ifs <;> rfl


/-- The driver on `exampleSolver`: code 1 after a failed `reorder()` (3 calls), code 1
after a failed `factor()` (4 calls), code 0 otherwise (5 calls), whatever `refine()`
returns. -/
theorem test_sparse_solver_examples :
    test_sparse_solver 0 (exampleSolver 1 0 5) () () 0
        = (1, [SolverCall.set_from_command_line, SolverCall.set_matrix, SolverCall.reorder], 3) ∧
      test_sparse_solver 0 (exampleSolver 0 2 5) () () 0
        = (1, [SolverCall.set_from_command_line, SolverCall.set_matrix, SolverCall.reorder,
            SolverCall.factor], 4) ∧
      (test_sparse_solver 0 (exampleSolver 0 0 5) () () 0).1 = 0 ∧
      (test_sparse_solver 0 (exampleSolver 0 0 (-7)) () () 0).1 = 0 ∧
      (test_sparse_solver 0 (exampleSolver 0 0 5) () () 0).2.2 = 5 := by
  decide


end BLR
end strumpack
